import Mathlib

/-!
Shallow embedding of the `aca-safety-net` pre-execution policy hook
(Rust sources under `src/`).  Strings are embedded as `List Char`
(Unicode scalar values, matching Rust `char`); regexes compiled at
policy-load time are embedded as opaque matcher functions
`List Char → Bool`, and the concrete default patterns are embedded as
executable matchers faithful to the `regex` crate semantics on the
inputs considered (ASCII word characters).
-/

namespace AcaSafetyNet

/-! ## shell/tokenizer.rs -/

/-- A token from shell parsing (`Token` in `shell/tokenizer.rs`). -/
inductive Token where
  | word (s : List Char) : Token
  | redirect (s : List Char) : Token
  | assignment (name value : List Char) : Token
deriving DecidableEq, Repr

/-- `is_valid_var_name` in `shell/tokenizer.rs`: first char alphabetic or
underscore, rest alphanumeric or underscore (ASCII reading of Rust's
Unicode `is_alphabetic` / `is_alphanumeric`; all inputs in this
development are ASCII). -/
def is_valid_var_name (s : List Char) : Bool :=
  match s with
  | [] => false
  | c :: rest => (c.isAlpha || c = '_') && rest.all (fun d => d.isAlphanum || d = '_')

/-- `classify_token` in `shell/tokenizer.rs`: a finished word with `=` at a
nonzero position and a valid variable name before it is an assignment. -/
def classify_token (s : List Char) : Token :=
  match s.findIdx? (· = '=') with
  | some i =>
      if 0 < i ∧ is_valid_var_name (s.take i) then
        Token.assignment (s.take i) (s.drop (i + 1))
      else Token.word s
  | none => Token.word s

/-- The `>` redirect lookahead of `tokenize`: `>>`, `>>&`, `>&` are
recognized by peeking; returns the redirect text and the remaining
input. -/
def read_redirect_gt (rest : List Char) : List Char × List Char :=
  match rest with
  | '>' :: '&' :: rest2 => (['>', '>', '&'], rest2)
  | '>' :: rest2 => (['>', '>'], rest2)
  | '&' :: rest2 => (['>', '&'], rest2)
  | _ => (['>'], rest)

/-- The `<` redirect lookahead of `tokenize`: `<<` and `<<<` are
recognized by peeking. -/
def read_redirect_lt (rest : List Char) : List Char × List Char :=
  match rest with
  | '<' :: '<' :: rest2 => (['<', '<', '<'], rest2)
  | '<' :: rest2 => (['<', '<'], rest2)
  | _ => (['<'], rest)

/-- The scanner loop of `tokenize` in `shell/tokenizer.rs`.  State bits:
in-single-quote, in-double-quote, escape-next; `cur` is the word being
accumulated.  The loop consumes one or more characters per step, so a
structural fuel bounded below by the input length (each step spends one
unit) makes the recursion structural; with enough fuel the fuel never
runs out. -/
def tokenizeAux : Nat → List Char → Bool → Bool → Bool → List Char → List Token
  | _, [], _, _, _, cur =>
      if cur.isEmpty then [] else [classify_token cur]
  | 0, _ :: _, _, _, _, _ => []
  | fuel + 1, c :: rest, inS, inD, esc, cur =>
      if esc then tokenizeAux fuel rest inS inD false (cur ++ [c])
      else if c = '\\' && !inS then
        -- in double quotes the backslash itself is retained, else elided
        if !inD then tokenizeAux fuel rest inS inD true cur
        else tokenizeAux fuel rest inS inD true (cur ++ [c])
      else if c = '\'' && !inD then tokenizeAux fuel rest (!inS) inD false cur
      else if c = '"' && !inS then tokenizeAux fuel rest inS (!inD) false cur
      else if inS || inD then tokenizeAux fuel rest inS inD false (cur ++ [c])
      else if c.isWhitespace then
        if cur.isEmpty then tokenizeAux fuel rest inS inD false []
        else classify_token cur :: tokenizeAux fuel rest inS inD false []
      else if c = '>' then
        let flushed := if cur.isEmpty then ([] : List Token) else [classify_token cur]
        let r := read_redirect_gt rest
        flushed ++ Token.redirect r.1 :: tokenizeAux fuel r.2 inS inD false []
      else if c = '<' then
        let flushed := if cur.isEmpty then ([] : List Token) else [classify_token cur]
        let r := read_redirect_lt rest
        flushed ++ Token.redirect r.1 :: tokenizeAux fuel r.2 inS inD false []
      else tokenizeAux fuel rest inS inD false (cur ++ [c])

/-- `tokenize` in `shell/tokenizer.rs`. -/
def tokenize (input : List Char) : List Token :=
  tokenizeAux input.length input false false false []

/-! ## shell/splitter.rs -/

/-- Shell operators that separate commands (`Operator`). -/
inductive Operator where
  | and | or | pipe | semicolon | background
deriving DecidableEq, Repr

/-- A segment of a shell command (`CommandSegment`). -/
structure CommandSegment where
  command : List Char
  operator : Option Operator
deriving DecidableEq, Repr

/-- Rust `str::trim`, left side. -/
def trimLeft (l : List Char) : List Char := l.dropWhile Char.isWhitespace

/-- Rust `str::trim`, right side. -/
def trimRight (l : List Char) : List Char := (l.reverse.dropWhile Char.isWhitespace).reverse

/-- Rust `str::trim`. -/
def trimStr (l : List Char) : List Char := trimRight (trimLeft l)

/-- Emission step of `split_commands`: trim the accumulated buffer and
emit it with the operator if nonempty. -/
def emitSeg (cur : List Char) (op : Option Operator) : List CommandSegment :=
  let t := trimStr cur
  if t.isEmpty then [] else [⟨t, op⟩]

/-- The two-character operator lookahead of `split_commands` after `&`:
`&&` is And (consuming the peeked character), a lone `&` is
Background. -/
def operator_after_amp (rest : List Char) : Operator × List Char :=
  match rest with
  | '&' :: rest2 => (Operator.and, rest2)
  | _ => (Operator.background, rest)

/-- The two-character operator lookahead of `split_commands` after `|`:
`||` is Or (consuming the peeked character), a lone `|` is Pipe. -/
def operator_after_bar (rest : List Char) : Operator × List Char :=
  match rest with
  | '|' :: rest2 => (Operator.or, rest2)
  | _ => (Operator.pipe, rest)

/-- The scanner loop of `split_commands` in `shell/splitter.rs`, with the
same structural-fuel discipline as `tokenizeAux` (fuel at least the
input length never runs out). -/
def splitAux : Nat → List Char → Bool → Bool → Bool → List Char → List CommandSegment
  | _, [], _, _, _, cur => emitSeg cur none
  | 0, _ :: _, _, _, _, _ => []
  | fuel + 1, c :: rest, inS, inD, esc, cur =>
      if esc then splitAux fuel rest inS inD false (cur ++ [c])
      else if c = '\\' && !inS then splitAux fuel rest inS inD true (cur ++ [c])
      else if c = '\'' && !inD then splitAux fuel rest (!inS) inD false (cur ++ [c])
      else if c = '"' && !inS then splitAux fuel rest inS (!inD) false (cur ++ [c])
      else if inS || inD then splitAux fuel rest inS inD false (cur ++ [c])
      else if c = '&' then
        let o := operator_after_amp rest
        emitSeg cur (some o.1) ++ splitAux fuel o.2 inS inD esc []
      else if c = '|' then
        let o := operator_after_bar rest
        emitSeg cur (some o.1) ++ splitAux fuel o.2 inS inD esc []
      else if c = ';' then
        emitSeg cur (some Operator.semicolon) ++ splitAux fuel rest inS inD esc []
      else splitAux fuel rest inS inD false (cur ++ [c])

/-- `split_commands` in `shell/splitter.rs`. -/
def split_commands (input : List Char) : List CommandSegment :=
  splitAux input.length input false false false []

/-! ## shell/wrappers.rs -/

/-- `WRAPPER_COMMANDS` in `shell/wrappers.rs`. -/
def WRAPPER_COMMANDS : List (List Char) :=
  ["sudo".toList, "doas".toList, "su".toList, "env".toList, "nohup".toList, "nice".toList,
   "ionice".toList, "timeout".toList, "time".toList, "strace".toList, "ltrace".toList,
   "watch".toList]

/-- `MAX_STRIP_DEPTH` in `shell/wrappers.rs`. -/
def MAX_STRIP_DEPTH : Nat := 5

/-- The words (non-redirect, non-assignment tokens) of a token list, as
collected by `handle_shell_c` / `handle_wrapper` / the analyzers. -/
def wordsOf (tokens : List Token) : List (List Char) :=
  tokens.filterMap (fun t => match t with | Token.word w => some w | _ => none)

/-- Rust `Vec::join(" ")`: words separated by single spaces. -/
def joinWords : List (List Char) → List Char
  | [] => []
  | [w] => w
  | w :: ws => w ++ ' ' :: joinWords ws

/-- `sudo` option skipping in `handle_wrapper`: options taking arguments
consume two slots, other `-…` words one; a non-option word ends parsing. -/
def sudo_skip : List (List Char) → List (List Char)
  | [] => []
  | w :: rest =>
      if w.head? = some '-' then
        if w = "-u".toList ∨ w = "-g".toList ∨ w = "-C".toList ∨ w = "-D".toList ∨
            w = "-h".toList ∨ w = "-p".toList ∨ w = "-r".toList ∨ w = "-t".toList then
          match rest with
          | [] => []
          | _ :: rest2 => sudo_skip rest2
        else sudo_skip rest
      else w :: rest

/-- `timeout` option skipping in `handle_wrapper`: flagged options, then
one non-option word (the duration). -/
def timeout_skip : List (List Char) → List (List Char)
  | [] => []
  | w :: rest =>
      if w.head? = some '-' then
        if w = "-s".toList ∨ w = "--signal".toList ∨ w = "-k".toList ∨
            w = "--kill-after".toList then
          match rest with
          | [] => []
          | _ :: rest2 => timeout_skip rest2
        else timeout_skip rest
      else rest

/-- `nice`/`ionice` option skipping in `handle_wrapper`. -/
def nice_skip : List (List Char) → List (List Char)
  | [] => []
  | w :: rest =>
      if w.head? = some '-' then
        if w = "-n".toList ∨ w = "-c".toList then
          match rest with
          | [] => []
          | _ :: rest2 => nice_skip rest2
        else nice_skip rest
      else w :: rest

/-- `env` option skipping in `handle_wrapper`: consume while the word
starts with `-` or contains `=`. -/
def env_skip (ws : List (List Char)) : List (List Char) :=
  ws.dropWhile (fun w => w.head? = some '-' || w.contains '=')

/-- Generic option skipping in `handle_wrapper`: consume leading `-…` words. -/
def generic_skip (ws : List (List Char)) : List (List Char) :=
  ws.dropWhile (fun w => w.head? = some '-')

/-- Find the payload of a `-c` flag: the first word after the first `-c`
word (the scan inside `handle_shell_c`). -/
def shell_c_payload : List Token → Bool → Option (List Char)
  | [], _ => none
  | Token.word w :: rest, found =>
      if w = "-c".toList then shell_c_payload rest true
      else if found then some w
      else shell_c_payload rest false
  | _ :: rest, found => shell_c_payload rest found

/-- Is a token an assignment (the leading-assignment skip in
`strip_wrappers_recursive`)? -/
def isAssignmentTok (t : Token) : Bool :=
  match t with | Token.assignment _ _ => true | _ => false

/-- `strip_wrappers_recursive` in `shell/wrappers.rs`, with the remaining
depth budget (`MAX_STRIP_DEPTH - depth`) as structural fuel: fuel `0`
corresponds to `depth >= MAX_STRIP_DEPTH`, where the input is returned
verbatim.  The bodies of `handle_shell_c` and `handle_wrapper` are
inlined (they recurse at the decremented budget); named wrappers for
them follow below. -/
def stripGo : Nat → List Char → List Char
  | 0, command => command
  | fuel + 1, command =>
      let tokens := tokenize command
      let rest := tokens.dropWhile isAssignmentTok
      match rest with
      | [] => command
      | Token.word cmd :: _ =>
          if cmd = "bash".toList ∨ cmd = "sh".toList ∨ cmd = "zsh".toList ∨
              cmd = "dash".toList then
            -- handle_shell_c
            match shell_c_payload rest false with
            | some w => stripGo fuel w
            | none => joinWords (wordsOf rest)
          else if cmd ∈ WRAPPER_COMMANDS then
            -- handle_wrapper
            match wordsOf rest with
            | [] => []
            | wrapper :: args =>
                let remaining :=
                  if wrapper = "sudo".toList then sudo_skip args
                  else if wrapper = "env".toList then env_skip args
                  else if wrapper = "timeout".toList then timeout_skip args
                  else if wrapper = "nice".toList ∨ wrapper = "ionice".toList then
                    nice_skip args
                  else generic_skip args
                if remaining.isEmpty then []
                else stripGo fuel (joinWords remaining)
          else command
      | _ => command

/-- `handle_shell_c` in `shell/wrappers.rs` (at remaining budget `fuel`):
re-apply the stripper to the word following `-c`, or rebuild the words
if no `-c` payload is found. -/
def handle_shell_c (fuel : Nat) (tokens : List Token) : List Char :=
  match shell_c_payload tokens false with
  | some w => stripGo fuel w
  | none => joinWords (wordsOf tokens)

/-- `handle_wrapper` in `shell/wrappers.rs` (at remaining budget `fuel`):
skip the wrapper word and its options, rebuild the remaining words, and
recurse. -/
def handle_wrapper (fuel : Nat) (tokens : List Token) : List Char :=
  match wordsOf tokens with
  | [] => []
  | wrapper :: args =>
      let remaining :=
        if wrapper = "sudo".toList then sudo_skip args
        else if wrapper = "env".toList then env_skip args
        else if wrapper = "timeout".toList then timeout_skip args
        else if wrapper = "nice".toList ∨ wrapper = "ionice".toList then nice_skip args
        else generic_skip args
      if remaining.isEmpty then []
      else stripGo fuel (joinWords remaining)

/-- `strip_wrappers_recursive(command, depth)`. -/
def strip_wrappers_recursive (command : List Char) (depth : Nat) : List Char :=
  stripGo (MAX_STRIP_DEPTH - depth) command

/-- `strip_wrappers` in `shell/wrappers.rs`. -/
def strip_wrappers (command : List Char) : List Char :=
  stripGo MAX_STRIP_DEPTH command

/-- Shorthand for embedding Rust string literals. -/
def str (s : String) : List Char := s.toList

/-! ## decision.rs -/

/-- `BlockInfo` in `decision.rs`. -/
structure BlockInfo where
  rule : List Char
  reason : List Char
  details : Option (List Char)
deriving DecidableEq, Repr

/-- `AskInfo` in `decision.rs`. -/
structure AskInfo where
  rule : List Char
  reason : List Char
  suggestion : Option (List Char)
deriving DecidableEq, Repr

/-- `Decision` in `decision.rs`. -/
inductive Decision where
  | Allow : Decision
  | Block (info : BlockInfo) : Decision
  | Ask (info : AskInfo) : Decision
deriving DecidableEq, Repr

/-- `Decision::block` (a block with no details). -/
def Decision.block (rule reason : List Char) : Decision :=
  Decision.Block ⟨rule, reason, none⟩

/-- `Decision::ask` (an ask with no suggestion). -/
def Decision.ask (rule reason : List Char) : Decision :=
  Decision.Ask ⟨rule, reason, none⟩

/-- `Decision::is_blocked`. -/
def Decision.is_blocked : Decision → Bool
  | Decision.Block _ => true
  | _ => false

/-- `Decision::is_ask`. -/
def Decision.is_ask : Decision → Bool
  | Decision.Ask _ => true
  | _ => false

/-! ## config.rs

A compiled policy.  Every regex compiled at policy-load time is
embedded as its matcher function `List Char → Bool` (compilation cannot
fail at matching time; `CompiledConfig` invariant). -/

/-- A deny rule with its compiled pattern (`DenyRule` plus the compiled
regex from `CompiledConfig.deny_patterns`). -/
structure DenyRule where
  tool : List Char
  matcher : List Char → Bool
  reason : List Char

/-- A custom user rule (`CustomRule`).  The evaluator recompiles the
pattern and silently skips rules whose pattern does not compile, so the
matcher is optional (`none` = uncompilable pattern). -/
structure CustomRule where
  name : List Char
  tool : List Char
  matcher : Option (List Char → Bool)
  action : List Char
  reason : Option (List Char)

/-- `GitConfig` in `config.rs`. -/
structure GitConfig where
  block_destructive : Bool
  block_add_sensitive : Bool
  force_push_allowed_branches : List (List Char)

/-- `RmConfig` in `config.rs`. -/
structure RmConfig where
  block_outside_cwd : Bool
  allowed_paths : List (List Char)

/-- `DependencyConfig` in `config.rs` (with compiled patterns). -/
structure DependencyConfig where
  enabled : Bool
  patterns : List (List Char → Bool)
  suggestion : Option (List Char)

/-- `CompiledConfig` in `config.rs`: compiled matchers paired with the
original source pattern strings where the source keeps both. -/
structure CompiledConfig where
  sensitive_patterns : List ((List Char → Bool) × List Char)
  read_commands_re : Option (List Char → Bool)
  deny_patterns : List DenyRule
  rules : List CustomRule
  paranoid_enabled : Bool
  paranoid_extra : List ((List Char → Bool) × List Char)
  git : GitConfig
  rm : RmConfig
  dependencies : DependencyConfig

/-- `CompiledConfig::is_sensitive_path`: first matching pattern, returning
its source string. -/
def CompiledConfig.is_sensitive_path (cfg : CompiledConfig) (path : List Char) :
    Option (List Char) :=
  (cfg.sensitive_patterns.find? (fun p => p.1 path)).map (fun p => p.2)

/-- `CompiledConfig::is_read_command`. -/
def CompiledConfig.is_read_command (cfg : CompiledConfig) (command : List Char) : Bool :=
  match cfg.read_commands_re with
  | some re => re command
  | none => false

/-- `CompiledConfig::matches_paranoid`: sensitive patterns first, then the
paranoid extras, returning the source string of the first match. -/
def CompiledConfig.matches_paranoid (cfg : CompiledConfig) (text : List Char) :
    Option (List Char) :=
  if !cfg.paranoid_enabled then none
  else ((cfg.sensitive_patterns ++ cfg.paranoid_extra).find? (fun p => p.1 text)).map
    (fun p => p.2)

/-- `CompiledConfig::is_dependency_file` (compilation leaves the pattern
list empty when dependency protection is disabled, so the flag check is
equivalent). -/
def CompiledConfig.is_dependency_file (cfg : CompiledConfig) (path : List Char) : Bool :=
  cfg.dependencies.enabled && cfg.dependencies.patterns.any (fun re => re path)

/-- `CompiledConfig::dependency_suggestion`. -/
def CompiledConfig.dependency_suggestion (cfg : CompiledConfig) : Option (List Char) :=
  cfg.dependencies.suggestion

/-- A policy with everything empty or off; concrete policies below
override the relevant fields. -/
def trivialConfig : CompiledConfig :=
  { sensitive_patterns := []
    read_commands_re := none
    deny_patterns := []
    rules := []
    paranoid_enabled := false
    paranoid_extra := []
    git := { block_destructive := true, block_add_sensitive := true,
             force_push_allowed_branches := [] }
    rm := { block_outside_cwd := true, allowed_paths := [str "/tmp", str "/var/tmp"] }
    dependencies := { enabled := true, patterns := [], suggestion := none } }

/-! ### The default sensitive-file patterns (`DEFAULT_SENSITIVE_FILES`)

Each default regex is one of two shapes: a literal substring, or a
literal followed by `\b`.  `regex_lit` and `regex_lit_boundary` embed
exactly those shapes with the `regex` crate's semantics: `\b` holds
between a word character (`\w` = alphanumeric or underscore; ASCII
fragment suffices for the inputs considered) and a non-word character
or the end of the haystack; every literal here ends in a word
character. -/

/-- Rust `str::contains(&str)`: substring search. -/
def contains_sub (needle : List Char) : List Char → Bool
  | [] => needle.isEmpty
  | s@(_ :: rest) => needle.isPrefixOf s || contains_sub needle rest

/-- Regex `\w` (ASCII fragment). -/
def isWordChar (c : Char) : Bool := c.isAlphanum || c = '_'

/-- Does `s` start with `lit` followed by a word boundary? -/
def lit_boundary_at (lit s : List Char) : Bool :=
  lit.isPrefixOf s &&
    (match s.drop lit.length with
     | [] => true
     | c :: _ => !isWordChar c)

/-- Matcher for the regex `lit\b` (with `lit` a literal ending in a word
character): some position of `s` starts with `lit` followed by a word
boundary. -/
def regex_lit_boundary (lit : List Char) : List Char → Bool
  | [] => lit_boundary_at lit []
  | s@(_ :: rest) => lit_boundary_at lit s || regex_lit_boundary lit rest

/-- Matcher for a plain literal regex: substring containment. -/
def regex_lit (lit : List Char) (s : List Char) : Bool := contains_sub lit s

/-- `DEFAULT_SENSITIVE_FILES` in `config.rs`, compiled: matcher plus
source pattern string. -/
def DEFAULT_SENSITIVE_FILES : List ((List Char → Bool) × List Char) :=
  [(regex_lit_boundary (str ".env"), str "\\.env\\b"),
   (regex_lit_boundary (str ".envrc"), str "\\.envrc\\b"),
   (regex_lit (str "credentials"), str "credentials"),
   (regex_lit (str "secrets"), str "secrets"),
   (regex_lit_boundary (str ".netrc"), str "\\.netrc\\b"),
   (regex_lit_boundary (str ".npmrc"), str "\\.npmrc\\b"),
   (regex_lit_boundary (str ".pypirc"), str "\\.pypirc\\b"),
   (regex_lit_boundary (str ".pem"), str "\\.pem\\b"),
   (regex_lit_boundary (str ".key"), str "\\.key\\b"),
   (regex_lit (str "id_rsa"), str "id_rsa"),
   (regex_lit (str "id_ed25519"), str "id_ed25519"),
   (regex_lit (str "id_ecdsa"), str "id_ecdsa"),
   (regex_lit (str ".git-credentials"), str "\\.git-credentials"),
   (regex_lit (str ".kube/config"), str "\\.kube/config"),
   (regex_lit (str "kubeconfig"), str "kubeconfig"),
   (regex_lit (str ".aws/credentials"), str "\\.aws/credentials"),
   (regex_lit (str ".config/gcloud/"), str "\\.config/gcloud/"),
   (regex_lit (str ".config/gh/hosts.yml"), str "\\.config/gh/hosts\\.yml"),
   (regex_lit_boundary (str "_history"), str "_history\\b"),
   (regex_lit (str ".bash_history"), str "\\.bash_history"),
   (regex_lit (str ".zsh_history"), str "\\.zsh_history")]

/-! ## rules/sensitive_files.rs -/

/-- `ENV_TIP` in `rules/sensitive_files.rs`. -/
def ENV_TIP : List Char :=
  str "Tip: .env.example, .env.sample, .env.template, and .env.dist are allowed by default"

/-- `check_sensitive_path` in `rules/sensitive_files.rs`. -/
def check_sensitive_path (path : List Char) (cfg : CompiledConfig) : Decision :=
  match cfg.is_sensitive_path path with
  | some pattern =>
      let info : BlockInfo :=
        ⟨str "secrets.sensitive_file",
         str "access to sensitive file matching '" ++ pattern ++ str "'",
         none⟩
      if contains_sub (str "\\.env") pattern then
        Decision.Block { info with details := some ENV_TIP }
      else Decision.Block info
  | none => Decision.Allow

/-! ## rules/custom.rs -/

/-- The rule loop of `check_custom_rules` in `rules/custom.rs`. -/
def check_custom_rules_go (tool content : List Char) : List CustomRule → Decision
  | [] => Decision.Allow
  | r :: rest =>
      if r.tool ≠ tool then check_custom_rules_go tool content rest
      else match r.matcher with
        | none => check_custom_rules_go tool content rest
        | some re =>
            if re content then
              if r.action = str "allow" then Decision.Allow
              else if r.action = str "block" then
                Decision.block r.name
                  (r.reason.getD (str "blocked by custom rule '" ++ r.name ++ str "'"))
              else check_custom_rules_go tool content rest
            else check_custom_rules_go tool content rest

/-- `check_custom_rules` in `rules/custom.rs`. -/
def check_custom_rules (tool content : List Char) (cfg : CompiledConfig) : Decision :=
  check_custom_rules_go tool content cfg.rules

/-! ## rules/git.rs -/

/-- `analyze_git_checkout`. -/
def analyze_git_checkout (args : List (List Char)) : Decision :=
  if args.contains (str "--") then
    Decision.block (str "git.checkout") (str "git checkout -- discards uncommitted changes")
  else if args.contains (str "-f") || args.contains (str "--force") then
    Decision.block (str "git.checkout.force")
      (str "git checkout --force discards uncommitted changes")
  else Decision.Allow

/-- `analyze_git_reset`. -/
def analyze_git_reset (args : List (List Char)) : Decision :=
  if args.contains (str "--hard") then
    Decision.block (str "git.reset.hard")
      (str "git reset --hard discards all uncommitted changes")
  else Decision.Allow

/-- The force detection of `analyze_git_push`. -/
def git_push_is_force (args : List (List Char)) : Bool :=
  args.any (fun a =>
    a = str "-f" ∨ a = str "--force" ∨ a = str "--force-with-lease" ∨
      (str "--force-with-lease=").isPrefixOf a)

/-- The remote/branch walk of `analyze_git_push`: skip options (some with
an argument), collect the first non-option word as remote and the
second as branch. -/
def git_push_walk :
    List (List Char) → Bool → Option (List Char) → Option (List Char) →
      Option (List Char) × Option (List Char)
  | [], _, remote, branch => (remote, branch)
  | a :: rest, skip, remote, branch =>
      if skip then git_push_walk rest false remote branch
      else if a.head? = some '-' then
        git_push_walk rest
          (a = str "-u" ∨ a = str "--set-upstream" ∨ a = str "-o" ∨ a = str "--push-option")
          remote branch
      else if remote.isNone then git_push_walk rest false (some a) branch
      else if branch.isNone then git_push_walk rest false remote (some a)
      else git_push_walk rest false remote branch

/-- The protected branch set in `analyze_git_push`. -/
def protected_branches : List (List Char) :=
  [str "main", str "master", str "develop", str "release"]

/-- `analyze_git_push` in `rules/git.rs`. -/
def analyze_git_push (args : List (List Char)) (cfg : CompiledConfig) : Decision :=
  if !git_push_is_force args then Decision.Allow
  else
    let rb := git_push_walk args false none none
    let target_branch := rb.2.getD (str "HEAD")
    if cfg.git.force_push_allowed_branches.contains target_branch then Decision.Allow
    else if protected_branches.contains target_branch then
      Decision.block (str "git.push.force")
        (str "force push to protected branch '" ++ target_branch ++ str "' is blocked")
    else Decision.Allow

/-- `analyze_git_branch`. -/
def analyze_git_branch (args : List (List Char)) : Decision :=
  if args.contains (str "-D") then
    let branch := args.find? (fun a => !(a.head? = some '-'))
    Decision.block (str "git.branch.force_delete")
      (str "git branch -D force-deletes branch" ++
        (match branch with
         | some b => str " '" ++ b ++ str "'"
         | none => []))
  else Decision.Allow

/-- `analyze_git_stash`. -/
def analyze_git_stash (args : List (List Char)) : Decision :=
  match args with
  | [] => Decision.Allow
  | a :: _ =>
      if a = str "drop" then
        Decision.block (str "git.stash.drop")
          (str "git stash drop permanently deletes stashed changes")
      else if a = str "clear" then
        Decision.block (str "git.stash.clear")
          (str "git stash clear deletes ALL stashed changes")
      else Decision.Allow

/-- `analyze_git_clean`. -/
def analyze_git_clean (args : List (List Char)) : Decision :=
  if args.contains (str "-f") || args.contains (str "--force") then
    if args.contains (str "-d") || args.contains (str "-x") || args.contains (str "-X") then
      Decision.block (str "git.clean.force")
        (str "git clean -fd/-fx permanently deletes untracked files/directories")
    else
      Decision.block (str "git.clean") (str "git clean -f permanently deletes untracked files")
  else Decision.Allow

/-- The argument loop of `analyze_git_add`. -/
def git_add_go (cfg : CompiledConfig) : List (List Char) → Decision
  | [] => Decision.Allow
  | a :: rest =>
      if a.head? = some '-' then git_add_go cfg rest
      else match cfg.is_sensitive_path a with
        | some pattern =>
            Decision.block (str "git.add.sensitive")
              (str "git add on sensitive file matching '" ++ pattern ++ str "'")
        | none => git_add_go cfg rest

/-- `analyze_git_add` in `rules/git.rs`. -/
def analyze_git_add (args : List (List Char)) (cfg : CompiledConfig) : Decision :=
  if !cfg.git.block_add_sensitive then Decision.Allow
  else git_add_go cfg args

/-- `analyze_git` in `rules/git.rs`. -/
def analyze_git (tokens : List Token) (cfg : CompiledConfig) : Decision :=
  match wordsOf tokens with
  | _ :: subcommand :: args =>
      if subcommand = str "checkout" then analyze_git_checkout args
      else if subcommand = str "reset" then analyze_git_reset args
      else if subcommand = str "push" then analyze_git_push args cfg
      else if subcommand = str "branch" then analyze_git_branch args
      else if subcommand = str "stash" then analyze_git_stash args
      else if subcommand = str "clean" then analyze_git_clean args
      else if subcommand = str "add" then analyze_git_add args cfg
      else Decision.Allow
  | _ => Decision.Allow
example : strip_wrappers ("sudo -u root ls -la".toList) = ("ls -la".toList) := by decide
example : strip_wrappers ("env FOO=bar ls".toList) = ("ls".toList) := by decide
example : strip_wrappers ("timeout 5 ls".toList) = ("ls".toList) := by decide
example : strip_wrappers ("bash -c 'ls -la'".toList) = ("ls -la".toList) := by decide
example : split_commands ("cd /tmp && ls".toList) =
    [⟨"cd /tmp".toList, some Operator.and⟩, ⟨"ls".toList, none⟩] := by decide
example : split_commands ("echo '&&' && ls".toList) =
    [⟨"echo '&&'".toList, some Operator.and⟩, ⟨"ls".toList, none⟩] := by decide
example : tokenize ("FOO=bar echo hi".toList) =
    [Token.assignment ("FOO".toList) ("bar".toList), Token.word ("echo".toList),
     Token.word ("hi".toList)] := by decide

/-! ## rules/rm.rs -/

/-- The flag/path scan of `analyze_rm` over `words[1..]`: combined short
flags containing `r`/`R` count as recursive; `--` is skipped; other
non-option words are collected as paths (long options other than
`--recursive`/`--force`/`--` are ignored). -/
def rm_scan : List (List Char) → Bool → List (List Char) → Bool × List (List Char)
  | [], hasRec, paths => (hasRec, paths)
  | w :: rest, hasRec, paths =>
      if w.head? = some '-' ∧ ¬(str "--").isPrefixOf w then
        rm_scan rest (hasRec || w.contains 'r' || w.contains 'R') paths
      else if w = str "-r" ∨ w = str "-R" ∨ w = str "--recursive" then
        rm_scan rest true paths
      else if w = str "-f" ∨ w = str "--force" then rm_scan rest hasRec paths
      else if w = str "--" then rm_scan rest hasRec paths
      else if ¬(w.head? = some '-') then rm_scan rest hasRec (paths ++ [w])
      else rm_scan rest hasRec paths

/-- Rust `Path::is_absolute` (Unix). -/
def path_is_absolute (p : List Char) : Bool := p.head? = some '/'

/-- Rust `Path::new(cwd).join(path)` rendered back to a string, for a
relative `path`. -/
def path_join (cwd p : List Char) : List Char :=
  if cwd.isEmpty then p
  else if cwd.getLast? = some '/' then cwd ++ p
  else cwd ++ '/' :: p

/-- The `dangerous_paths` array in `check_rm_path`. -/
def dangerous_paths : List (List Char) :=
  [str "/", str "/home", str "/etc", str "/usr", str "/var", str "/root", str "/boot",
   str "/sys", str "/proc"]

/-- Rust `str::len` (UTF-8 byte length). -/
def utf8Len (s : List Char) : Nat := (s.map Char.utf8Size).sum

/-- The per-`dangerous` condition in `check_rm_path`:
`normalized == *dangerous || normalized.starts_with("{dangerous}/") &&
normalized.len() <= dangerous.len() + 2` (Rust `&&` binds tighter than
`||`). -/
def rm_dangerous_hit (normalized dangerous : List Char) : Bool :=
  normalized = dangerous ∨
    ((dangerous ++ str "/").isPrefixOf normalized ∧
      utf8Len normalized ≤ utf8Len dangerous + 2)

/-- The `normalized` path of `check_rm_path`: absolute paths unchanged,
relative paths joined onto the cwd when one is known. -/
def rm_normalize (path : List Char) (cwd : Option (List Char)) : List Char :=
  if path_is_absolute path then path
  else match cwd with
    | some c => path_join c path
    | none => path

/-- `check_rm_path` in `rules/rm.rs` (`none` = no decision, continue to
the next path). -/
def check_rm_path (path : List Char) (cfg : CompiledConfig) (cwd : Option (List Char)) :
    Option Decision :=
  let normalized := rm_normalize path cwd
  if dangerous_paths.any (fun dangerous => rm_dangerous_hit normalized dangerous) then
    some (Decision.block (str "rm.dangerous_path")
      (str "rm -rf on system path '" ++ path ++ str "' is blocked"))
  else if cfg.rm.block_outside_cwd then
    match cwd with
    | some c =>
        if !is_path_within path c cfg.rm.allowed_paths then
          some (Decision.block (str "rm.outside_cwd")
            (str "rm -rf outside working directory: '" ++ path ++ str "'"))
        else none
    | none => none
  else none
where
  /-- Rust `str::split('/')`. -/
  splitChar (sep : Char) : List Char → List (List Char)
    | [] => [[]]
    | c :: rest =>
        if c = sep then [] :: splitChar sep rest
        else match splitChar sep rest with
          | [] => [[c]]
          | p :: ps => (c :: p) :: ps
  /-- The component walk of `is_path_within` for relative paths: `..`
  decrements and fails on a negative depth, `.` and empty components are
  no-ops, anything else increments. -/
  within_depth : List (List Char) → Int → Bool
    | [], _ => true
    | comp :: rest, depth =>
        if comp = str ".." then
          if depth - 1 < 0 then false else within_depth rest (depth - 1)
        else if comp = str "." ∨ comp = [] then within_depth rest depth
        else within_depth rest (depth + 1)
  /-- `is_path_within` in `rules/rm.rs`. -/
  is_path_within (path cwd : List Char) (allowed_paths : List (List Char)) : Bool :=
    if path_is_absolute path then
      cwd.isPrefixOf path || allowed_paths.any (fun allowed => allowed.isPrefixOf path)
    else within_depth (splitChar '/' path) 0

/-- The path loop of `analyze_rm`: the first path with a decision wins. -/
def rm_paths_check (cfg : CompiledConfig) (cwd : Option (List Char)) :
    List (List Char) → Decision
  | [] => Decision.Allow
  | p :: rest =>
      match check_rm_path p cfg cwd with
      | some d => d
      | none => rm_paths_check cfg cwd rest

/-- `analyze_rm` in `rules/rm.rs`. -/
def analyze_rm (tokens : List Token) (cfg : CompiledConfig) (cwd : Option (List Char)) :
    Decision :=
  match wordsOf tokens with
  | [] => Decision.Allow
  | _ :: args =>
      let scan := rm_scan args false []
      if !scan.1 then Decision.Allow
      else rm_paths_check cfg cwd scan.2

/-! ## rules/find.rs -/

/-- The `-exec`/`-execdir` span scan of `analyze_find`: `true` when a
span containing `rm` (or a word ending in `/rm`) reaches a terminator. -/
def find_exec_loop : List (List Char) → Bool → Bool → Bool
  | [], _, _ => false
  | w :: rest, in_exec, exec_has_rm =>
      if w = str "-exec" ∨ w = str "-execdir" then find_exec_loop rest true exec_has_rm
      else if in_exec then
        if w = str ";" ∨ w = str "+" ∨ w = str "\\;" then
          if exec_has_rm then true else find_exec_loop rest false false
        else if w = str "rm" ∨ (str "/rm").isSuffixOf w then find_exec_loop rest true true
        else find_exec_loop rest true exec_has_rm
      else find_exec_loop rest false exec_has_rm

/-- The `-ok`/`-okdir` span scan of `analyze_find`: `true` as soon as a
span contains `rm`. -/
def find_ok_loop : List (List Char) → Bool → Bool
  | [], _ => false
  | w :: rest, in_ok =>
      if w = str "-ok" ∨ w = str "-okdir" then find_ok_loop rest true
      else if in_ok then
        if w = str ";" ∨ w = str "\\;" then find_ok_loop rest false
        else if w = str "rm" ∨ (str "/rm").isSuffixOf w then true
        else find_ok_loop rest true
      else find_ok_loop rest false

/-- `analyze_find` in `rules/find.rs`. -/
def analyze_find (tokens : List Token) (_cfg : CompiledConfig) : Decision :=
  match wordsOf tokens with
  | [] => Decision.Allow
  | words =>
      if words.contains (str "-delete") then
        Decision.block (str "find.delete") (str "find -delete permanently deletes matching files")
      else if find_exec_loop words false false then
        Decision.block (str "find.exec_rm")
          (str "find -exec rm permanently deletes matching files")
      else if find_ok_loop words false then
        Decision.block (str "find.ok_rm") (str "find -ok rm can delete matching files (interactive)")
      else Decision.Allow

/-! ## rules/xargs.rs -/

/-- The `xargs` options that take an argument. -/
def xargs_arg_options : List (List Char) :=
  [str "-I", str "-L", str "-n", str "-P", str "-s", str "-a", str "-E", str "-d",
   str "--delimiter", str "--max-args", str "--max-procs", str "--replace",
   str "--max-lines", str "--arg-file", str "--eof", str "--max-chars"]

/-- The recursive-flag test used by `analyze_xargs` over the words from
the wrapped command onward. -/
def xargs_has_recursive (remaining : List (List Char)) : Bool :=
  remaining.any (fun w =>
    w = str "-r" ∨ w = str "-R" ∨ w = str "--recursive" ∨
      (w.head? = some '-' ∧ ¬(str "--").isPrefixOf w ∧ (w.contains 'r' ∨ w.contains 'R')))

/-- The argument walk of `analyze_xargs` (over `words[1..]`): skip xargs
options (with their arguments), then judge the first non-option word. -/
def xargs_loop : List (List Char) → Decision
  | [] => Decision.Allow
  | w :: rest =>
      if w.head? = some '-' then
        if w ∈ xargs_arg_options then
          match rest with
          | [] => Decision.Allow
          | _ :: rest2 => xargs_loop rest2
        else xargs_loop rest
      else if w = str "rm" ∨ (str "/rm").isSuffixOf w then
        if xargs_has_recursive (w :: rest) then
          Decision.block (str "xargs.rm_rf")
            (str "xargs rm -rf is dangerous - deletes files from piped input")
        else
          Decision.block (str "xargs.rm")
            (str "xargs rm is dangerous - deletes files from piped input")
      else Decision.Allow

/-- `analyze_xargs` in `rules/xargs.rs`. -/
def analyze_xargs (tokens : List Token) (_cfg : CompiledConfig) : Decision :=
  match wordsOf tokens with
  | [] => Decision.Allow
  | _ :: rest => xargs_loop rest

/-! ## rules/parallel.rs -/

/-- `analyze_parallel` in `rules/parallel.rs`. -/
def analyze_parallel (tokens : List Token) (_cfg : CompiledConfig) : Decision :=
  match wordsOf tokens with
  | [] => Decision.Allow
  | _ :: rest =>
      let found_rm := rest.any (fun w => w = str "rm" ∨ (str "/rm").isSuffixOf w)
      let has_recursive := rest.any (fun w =>
        w = str "-r" ∨ w = str "-R" ∨ w = str "--recursive" ∨ w = str "-rf" ∨ w = str "-fr" ∨
          (w.head? = some '-' ∧ ¬(str "--").isPrefixOf w ∧ (w.contains 'r' ∨ w.contains 'R')))
      if found_rm then
        if has_recursive then
          Decision.block (str "parallel.rm_rf")
            (str "parallel rm -rf is dangerous - deletes files in parallel from input")
        else
          Decision.block (str "parallel.rm")
            (str "parallel rm is dangerous - deletes files in parallel from input")
      else Decision.Allow

/-! ## rules/aws.rs -/

/-- `analyze_aws` in `rules/aws.rs`. -/
def analyze_aws (tokens : List Token) (_cfg : CompiledConfig) : Decision :=
  let words := wordsOf tokens
  match words with
  | _ :: service :: command :: _ =>
      if service = str "secretsmanager" then
        if command = str "get-secret-value" then
          Decision.block (str "aws.secretsmanager.get")
            (str "aws secretsmanager get-secret-value exposes secret contents")
        else Decision.Allow
      else if service = str "ssm" then
        if command = str "get-parameter" ∨ command = str "get-parameters" ∨
            command = str "get-parameters-by-path" then
          if words.contains (str "--with-decryption") then
            Decision.block (str "aws.ssm.decrypt")
              (str "aws ssm get-parameter with --with-decryption exposes decrypted secrets")
          else Decision.Allow
        else Decision.Allow
      else if service = str "kms" then
        if command = str "decrypt" then
          Decision.block (str "aws.kms.decrypt") (str "aws kms decrypt exposes decrypted data")
        else Decision.Allow
      else if service = str "iam" then
        if command = str "list-access-keys" then
          Decision.block (str "aws.iam.keys") (str "aws iam list-access-keys exposes access key IDs")
        else if command = str "get-access-key-last-used" then
          Decision.block (str "aws.iam.keys")
            (str "aws iam get-access-key-last-used exposes access key information")
        else if command = str "create-access-key" then
          Decision.block (str "aws.iam.keys")
            (str "aws iam create-access-key creates and exposes new credentials")
        else Decision.Allow
      else if service = str "sts" then
        if command = str "get-session-token" then
          Decision.block (str "aws.sts.credentials")
            (str "aws sts get-session-token exposes temporary credentials")
        else if command = str "assume-role" then
          Decision.block (str "aws.sts.credentials")
            (str "aws sts assume-role exposes temporary credentials")
        else Decision.Allow
      else if service = str "configure" then
        if command = str "export-credentials" then
          Decision.block (str "aws.configure.export")
            (str "aws configure export-credentials exposes credentials")
        else Decision.Allow
      else Decision.Allow
  | _ => Decision.Allow

/-! ## rules/gcloud.rs -/

/-- `analyze_gcloud` in `rules/gcloud.rs`. -/
def analyze_gcloud (tokens : List Token) (_cfg : CompiledConfig) : Decision :=
  let words := wordsOf tokens
  match words with
  | _ :: group :: rest =>
      if group = str "auth" then
        match rest with
        | [] => Decision.Allow
        | w2 :: rest2 =>
            if w2 = str "print-access-token" then
              Decision.block (str "gcloud.auth.token")
                (str "gcloud auth print-access-token exposes access token")
            else if w2 = str "print-identity-token" then
              Decision.block (str "gcloud.auth.token")
                (str "gcloud auth print-identity-token exposes identity token")
            else if w2 = str "application-default" then
              match rest2 with
              | w3 :: _ =>
                  if w3 = str "print-access-token" then
                    Decision.block (str "gcloud.auth.token")
                      (str "gcloud auth application-default print-access-token exposes ADC token")
                  else Decision.Allow
              | [] => Decision.Allow
            else Decision.Allow
      else if group = str "secrets" then
        match rest with
        | w2 :: w3 :: _ =>
            if w2 = str "versions" ∧ w3 = str "access" then
              Decision.block (str "gcloud.secrets.access")
                (str "gcloud secrets versions access exposes secret value")
            else Decision.Allow
        | _ => Decision.Allow
      else if group = str "sql" then
        match rest with
        | w2 :: w3 :: _ =>
            if w2 = str "users" ∧ w3 = str "set-password" then
              if words.any (fun w => (str "--password").isPrefixOf w) then
                Decision.block (str "gcloud.sql.password")
                  (str "gcloud sql users set-password with --password exposes password in command")
              else Decision.Allow
            else Decision.Allow
        | _ => Decision.Allow
      else Decision.Allow
  | _ => Decision.Allow

/-! ## rules/heroku.rs -/

/-- `analyze_heroku` in `rules/heroku.rs`. -/
def analyze_heroku (tokens : List Token) (_cfg : CompiledConfig) : Decision :=
  match wordsOf tokens with
  | _ :: sub :: _ =>
      if sub = str "auth:token" then
        Decision.block (str "heroku.auth.token")
          (str "heroku auth:token exposes authentication token")
      else if sub = str "config" then
        Decision.block (str "heroku.config")
          (str "heroku config exposes environment variables which may contain secrets")
      else if sub = str "config:get" then
        Decision.block (str "heroku.config.get")
          (str "heroku config:get exposes environment variable values")
      else if sub = str "pg:credentials" then
        Decision.block (str "heroku.pg.credentials")
          (str "heroku pg:credentials exposes database credentials")
      else if sub = str "pg:credentials:url" then
        Decision.block (str "heroku.pg.credentials")
          (str "heroku pg:credentials:url exposes database connection string with credentials")
      else if sub = str "redis:credentials" then
        Decision.block (str "heroku.redis.credentials")
          (str "heroku redis:credentials exposes Redis credentials")
      else Decision.Allow
  | _ => Decision.Allow

/-! ## rules/uv.rs -/

/-- `analyze_uv` in `rules/uv.rs`. -/
def analyze_uv (tokens : List Token) (_cfg : CompiledConfig) : Decision :=
  let words := wordsOf tokens
  match words with
  | _ :: subcommand :: rest =>
      if subcommand = str "run" then
        if words.any (fun w =>
            w = str "--with" ∨ (str "--with=").isPrefixOf w ∨
              (str "--with-requirements").isPrefixOf w) then
          Decision.block (str "uv.run.with")
            (str "uv run --with installs packages without modifying pyproject.toml. Use 'uv add <package>' to add dependencies instead")
        else Decision.Allow
      else if subcommand = str "pip" then
        match rest with
        | w2 :: _ =>
            if w2 = str "install" then
              Decision.block (str "uv.pip.install")
                (str "uv pip install installs packages without modifying pyproject.toml. Use 'uv add <package>' to add dependencies instead")
            else Decision.Allow
        | [] => Decision.Allow
      else Decision.Allow
  | _ => Decision.Allow

/-! ## rules/mod.rs -/

/-- The per-segment loop of `analyze_command`: strip wrappers, tokenize,
dispatch on the first word; the first blocking decision wins. -/
def analyze_segments (cfg : CompiledConfig) (cwd : Option (List Char)) :
    List CommandSegment → Decision
  | [] => Decision.Allow
  | seg :: rest =>
      let stripped := strip_wrappers seg.command
      let tokens := tokenize stripped
      match wordsOf tokens with
      | [] => analyze_segments cfg cwd rest
      | cmd_name :: _ =>
          let decision :=
            if cmd_name = str "git" then analyze_git tokens cfg
            else if cmd_name = str "rm" then analyze_rm tokens cfg cwd
            else if cmd_name = str "find" then analyze_find tokens cfg
            else if cmd_name = str "xargs" then analyze_xargs tokens cfg
            else if cmd_name = str "parallel" then analyze_parallel tokens cfg
            else if cmd_name = str "heroku" then analyze_heroku tokens cfg
            else if cmd_name = str "aws" then analyze_aws tokens cfg
            else if cmd_name = str "gcloud" then analyze_gcloud tokens cfg
            else if cmd_name = str "uv" then analyze_uv tokens cfg
            else Decision.Allow
          if decision.is_blocked then decision else analyze_segments cfg cwd rest

/-- `analyze_command` in `rules/mod.rs`. -/
def analyze_command (command : List Char) (cfg : CompiledConfig) (cwd : Option (List Char)) :
    Decision :=
  analyze_segments cfg cwd (split_commands command)

/-! ## analysis/bash.rs -/

/-- The word check of step 4 of `analyze_bash` (read command + sensitive
files) over the words of one stripped segment: non-option words go
through the sensitive-path matcher. -/
def read_sensitive_words (cfg : CompiledConfig) : List (List Char) → Decision
  | [] => Decision.Allow
  | w :: rest =>
      if w.head? = some '-' then read_sensitive_words cfg rest
      else
        let decision := check_sensitive_path w cfg
        if decision.is_blocked then decision else read_sensitive_words cfg rest

/-- Step 4 of `analyze_bash` over all segments. -/
def read_sensitive_segments (cfg : CompiledConfig) : List CommandSegment → Decision
  | [] => Decision.Allow
  | seg :: rest =>
      let d := read_sensitive_words cfg (wordsOf (tokenize (strip_wrappers seg.command)))
      if d.is_blocked then d else read_sensitive_segments cfg rest

/-- The path loop of step 5 of `analyze_bash` (`git add` on sensitive
files), over the words after `git add`. -/
def git_add_sensitive_paths (cfg : CompiledConfig) : List (List Char) → Decision
  | [] => Decision.Allow
  | p :: rest =>
      if p.head? = some '-' then git_add_sensitive_paths cfg rest
      else if (check_sensitive_path p cfg).is_blocked then
        Decision.block (str "git.add.sensitive") (str "git add on sensitive file: " ++ p)
      else git_add_sensitive_paths cfg rest

/-- Step 5 of `analyze_bash` over all segments. -/
def git_add_sensitive_segments (cfg : CompiledConfig) : List CommandSegment → Decision
  | [] => Decision.Allow
  | seg :: rest =>
      let words := wordsOf (tokenize (strip_wrappers seg.command))
      let d := match words with
        | w0 :: w1 :: paths =>
            if w0 = str "git" ∧ w1 = str "add" then git_add_sensitive_paths cfg paths
            else Decision.Allow
        | _ => Decision.Allow
      if d.is_blocked then d else git_add_sensitive_segments cfg rest

/-- `analyze_bash` in `analysis/bash.rs` (the Exec decision pipeline;
`BashInput.timeout` and `BashInput.description` are unused by the
source function, so only the command string is passed). -/
def analyze_bash (command : List Char) (cfg : CompiledConfig) (cwd : Option (List Char)) :
    Decision :=
  -- 1. explicit deny rules
  match cfg.deny_patterns.find? (fun r => r.tool == str "Bash" && r.matcher command) with
  | some r => Decision.block r.reason r.reason
  | none =>
    -- 2. custom rules (blocking only)
    let custom_decision := check_custom_rules (str "Bash") command cfg
    if custom_decision.is_blocked then custom_decision
    else
      -- 3. paranoid mode
      match cfg.matches_paranoid command with
      | some pattern =>
          Decision.block (str "paranoid.sensitive_mention")
            (str "command mentions sensitive pattern '" ++ pattern ++ str "'")
      | none =>
        -- 4. read commands + sensitive files
        let read_d :=
          if cfg.is_read_command command then
            read_sensitive_segments cfg (split_commands command)
          else Decision.Allow
        if read_d.is_blocked then read_d
        else
          -- 5. git add on sensitive files
          let ga := git_add_sensitive_segments cfg (split_commands command)
          if ga.is_blocked then ga
          else
            -- 6. built-in per-command analyzers
            analyze_command command cfg cwd

/-! ## analysis/edit.rs and analysis/write.rs -/

/-- `analyze_edit` in `analysis/edit.rs` (only the file path of the
input is consulted).  `AskInfo::new` plus the conditional
`with_suggestion` yield exactly the configured suggestion as the
suggestion field. -/
def analyze_edit (file_path : List Char) (cfg : CompiledConfig) : Decision :=
  match cfg.deny_patterns.find? (fun r => r.tool == str "Edit" && r.matcher file_path) with
  | some r => Decision.block r.reason r.reason
  | none =>
    let custom_decision := check_custom_rules (str "Edit") file_path cfg
    if custom_decision.is_blocked then custom_decision
    else if cfg.is_dependency_file file_path then
      Decision.Ask
        ⟨str "dependencies.edit", str "Editing dependency file: " ++ file_path,
         cfg.dependency_suggestion⟩
    else Decision.Allow

/-- `analyze_write` in `analysis/write.rs`. -/
def analyze_write (file_path : List Char) (cfg : CompiledConfig) : Decision :=
  match cfg.deny_patterns.find? (fun r => r.tool == str "Write" && r.matcher file_path) with
  | some r => Decision.block r.reason r.reason
  | none =>
    let custom_decision := check_custom_rules (str "Write") file_path cfg
    if custom_decision.is_blocked then custom_decision
    else if cfg.is_dependency_file file_path then
      Decision.Ask
        ⟨str "dependencies.write", str "Writing dependency file: " ++ file_path,
         cfg.dependency_suggestion⟩
    else Decision.Allow

/-! ## output/response.rs -/

/-- The `permissionDecisionReason` text built by `format_ask_json` in
`output/response.rs`: the ask reason, then (when a suggestion is
present) two newlines and the suggestion prefix. -/
def format_ask_reason (info : AskInfo) : List Char :=
  info.reason ++
    (match info.suggestion with
     | some s => str "\n\nSuggestion: " ++ s
     | none => [])

/-! ## audit.rs -/

/-- Rust `&s[..n]`: the first `n` bytes of the string, or `none` when
`n` is not a character boundary or exceeds the length (where Rust
panics). -/
def byte_slice : List Char → Nat → Option (List Char)
  | _, 0 => some []
  | [], _ + 1 => none
  | c :: rest, n + 1 =>
      if c.utf8Size ≤ n + 1 then (byte_slice rest (n + 1 - c.utf8Size)).map (fun l => c :: l)
      else none

/-- `truncate_string` in `audit.rs`: identity when the byte length fits,
else the first `max_len - 3` bytes plus `"..."`; `none` models the
byte-slice panic on a non-boundary index. -/
def truncate_string (s : List Char) (max_len : Nat) : Option (List Char) :=
  if utf8Len s ≤ max_len then some s
  else (byte_slice s (max_len - 3)).map (fun l => l ++ str "...")

/-- The `summary` computation of `AuditEntry::new` in `audit.rs`:
the command truncated to 200, else the file path, else `"<unknown>"`;
`none` models a panic. -/
def audit_summary (command file_path : Option (List Char)) : Option (List Char) :=
  match command with
  | some c => truncate_string c 200
  | none => some (file_path.getD (str "<unknown>"))

/-! ## Named concrete policies used by theorems and witnesses -/

/-- The policy whose sensitive-path patterns are the built-in defaults
(the other stages play no role in `check_sensitive_path`). -/
def defaultSensitiveConfig : CompiledConfig :=
  { trivialConfig with sensitive_patterns := DEFAULT_SENSITIVE_FILES }

/-- A custom rule whose pattern matches everything, with action `allow`. -/
def allow_everything_rule : CustomRule :=
  ⟨str "allow_all", str "Bash", some (fun _ => true), str "allow", none⟩

/-- A custom rule whose pattern matches everything, with action `block`. -/
def block_everything_rule : CustomRule :=
  ⟨str "block_all", str "Bash", some (fun _ => true), str "block", some (str "blocked")⟩

/-- A policy with a single match-everything custom `allow` rule for Bash. -/
def allowAllConfig : CompiledConfig :=
  { trivialConfig with rules := [allow_everything_rule] }

/-- The compiled default dependency pattern `(^|/)Cargo\.toml$`: the path
is `Cargo.toml` or ends in `/Cargo.toml`. -/
def cargo_toml_matcher : List Char → Bool :=
  fun p => p = str "Cargo.toml" || (str "/Cargo.toml").isSuffixOf p

/-- The default `DependencyConfig` suggestion string. -/
def DEFAULT_DEPENDENCY_SUGGESTION : List Char :=
  str "Use package manager CLI (cargo add, uv add, npm install, etc.) instead of editing directly"

/-- A policy with dependency protection on for `Cargo.toml` and the
default suggestion. -/
def depConfig : CompiledConfig :=
  { trivialConfig with
      dependencies := { enabled := true, patterns := [cargo_toml_matcher],
                        suggestion := some DEFAULT_DEPENDENCY_SUGGESTION } }

/-! ## Shared helper lemmas -/

/-- Peeling one word token off `wordsOf`. -/
theorem wordsOf_cons_word (w : List Char) (ts : List Token) :
    wordsOf (Token.word w :: ts) = w :: wordsOf ts := by
  simp [wordsOf, List.filterMap_cons]

/-- Extracting the words of a pure word-token list. -/
theorem wordsOf_map_word (ws : List (List Char)) : wordsOf (ws.map Token.word) = ws := by
  induction ws with
  | nil => rfl
  | cons w ws ih => simp [wordsOf, List.filterMap_cons] at ih ⊢; exact ih

/-- A deny-rule list none of whose rules is for the given tool never
finds a match. -/
theorem deny_find_none (l : List DenyRule) (tool content : List Char)
    (h : ∀ r ∈ l, r.tool ≠ tool) :
    l.find? (fun r => r.tool == tool && r.matcher content) = none := by
  rw [List.find?_eq_none]
  intro r hr
  simp only [Bool.and_eq_true, beq_iff_eq]
  intro hc
  exact h r hr hc.1

/-- A custom-rule list none of whose rules is for the given tool
evaluates to Allow. -/
theorem custom_rules_other_tool (tool content : List Char) (l : List CustomRule)
    (h : ∀ r ∈ l, r.tool ≠ tool) :
    check_custom_rules_go tool content l = Decision.Allow := by
  induction l with
  | nil => rfl
  | cons r rest ih =>
      have hr : r.tool ≠ tool := h r (List.mem_cons_self r rest)
      simp only [check_custom_rules_go, if_pos hr]
      exact ih (fun r' hr' => h r' (List.mem_cons_of_mem r hr'))

/-- The flag scan of `analyze_rm` on `-rf` followed by a single
path argument: recursive, one path. -/
theorem rm_scan_rf (p : List Char) (hp : p.head? ≠ some '-') :
    rm_scan [str "-rf", p] false [] = (true, [p]) := by
  have h1 : p ≠ str "-r" := fun h => hp (by rw [h]; rfl)
  have h2 : p ≠ str "-R" := fun h => hp (by rw [h]; rfl)
  have h3 : p ≠ str "--recursive" := fun h => hp (by rw [h]; rfl)
  have h4 : p ≠ str "-f" := fun h => hp (by rw [h]; rfl)
  have h5 : p ≠ str "--force" := fun h => hp (by rw [h]; rfl)
  have h6 : p ≠ str "--" := fun h => hp (by rw [h]; rfl)
  have e1 : rm_scan [str "-rf", p] false [] = rm_scan [p] true [] := rfl
  rw [e1]
  simp only [rm_scan]
  rw [if_neg (fun h => hp h.1),
    if_neg (by rintro (h | h | h) <;> simp_all),
    if_neg (by rintro (h | h) <;> simp_all),
    if_neg h6, if_pos hp]
  rfl

set_option maxRecDepth 8000

/-! ## C2 -/

/-- C2: with the default sensitive patterns, the scaffolding paths
`.env.example`, `.env.sample`, `.env.template`, `.env.dist` are all
BLOCKED by `check_sensitive_path`, and the pattern that fires is the
default `\.env\b` — contradicting the claim (and the repository's own
unit tests `test_env_example_allowed` …) that they are allowed.  In the
`regex` crate, `\b` holds between a word and a non-word character, so
`\.env\b` matches `.env.example` at the boundary between `v` and `.`,
exactly as it matches the intentionally-blocked `.env.local`. -/
theorem env_scaffolds_blocked :
    (check_sensitive_path (str ".env.example") defaultSensitiveConfig).is_blocked = true ∧
    (check_sensitive_path (str ".env.sample") defaultSensitiveConfig).is_blocked = true ∧
    (check_sensitive_path (str ".env.template") defaultSensitiveConfig).is_blocked = true ∧
    (check_sensitive_path (str ".env.dist") defaultSensitiveConfig).is_blocked = true ∧
    defaultSensitiveConfig.is_sensitive_path (str ".env.example") = some (str "\\.env\\b") ∧
    (check_sensitive_path (str ".env.local") defaultSensitiveConfig).is_blocked = true := by
  decide

/-! ## C10 -/

/-- C10: constructing the audit summary CAN fail.  `truncate_string`
slices the command at byte 197; on a command of 196 ASCII characters
followed by three `é` (two bytes each, 202 bytes total), byte 197 falls
inside the first `é`, the Rust byte slice `&s[..197]` panics, and
`AuditEntry::new` crashes — contradicting the claim that construction
never fails for arbitrary multi-byte UTF-8.  On ASCII input the claimed
truncation shape does hold (third conjunct). -/
theorem audit_truncation_panics :
    audit_summary (some (List.replicate 196 'a' ++ ['é', 'é', 'é'])) none = none ∧
    utf8Len (List.replicate 196 'a' ++ ['é', 'é', 'é']) = 202 ∧
    audit_summary (some (List.replicate 300 'a')) none =
      some (List.replicate 197 'a' ++ str "...") ∧
    audit_summary none (some (str "Cargo.toml")) = some (str "Cargo.toml") ∧
    audit_summary none none = some (str "<unknown>") := by
  decide

/-! ## C3 -/

/-- C3 (counterexample): a matching custom `allow` rule does NOT
pre-empt later pipeline stages.  With a match-everything Bash `allow`
rule, the custom stage returns Allow for `rm -rf /`, but `analyze_bash`
only tests `is_blocked()` on that result, falls through, and the rm
analyzer still blocks — so the overall verdict is Block, not the Allow
the claim requires. -/
theorem C3_counterexample :
    check_custom_rules (str "Bash") (str "rm -rf /") allowAllConfig = Decision.Allow ∧
    analyze_bash (str "rm -rf /") allowAllConfig none =
      Decision.block (str "rm.dangerous_path") (str "rm -rf on system path '/' is blocked") := by
  decide

/-- C3 (amended): a matching custom `allow` rule short-circuits the
REMAINING CUSTOM RULES only: if no earlier rule of the list matches for
this tool and the first matching rule has action `allow`, the custom
evaluator returns Allow regardless of the rules after it (including
later `block` rules).  The pipeline then continues and a later stage
may still block (see the counterexample). -/
theorem custom_allow_shortcircuits (cfg : CompiledConfig) (tool content : List Char)
    (pre post : List CustomRule) (r : CustomRule) (m : List Char → Bool)
    (hrules : cfg.rules = pre ++ r :: post)
    (hpre : ∀ r' ∈ pre, r'.tool = tool → ∀ m', r'.matcher = some m' → m' content = false)
    (htool : r.tool = tool) (hm : r.matcher = some m) (hmatch : m content = true)
    (hact : r.action = str "allow") :
    check_custom_rules tool content cfg = Decision.Allow := by
  unfold check_custom_rules
  rw [hrules]
  clear hrules
  induction pre with
  | nil => simp [check_custom_rules_go, htool, hm, hmatch, hact]
  | cons r' pre' ih =>
      have hpre' : ∀ x ∈ pre', x.tool = tool → ∀ m', x.matcher = some m' →
          m' content = false :=
        fun x hx => hpre x (List.mem_cons_of_mem r' hx)
      by_cases ht : r'.tool = tool
      · cases hm' : r'.matcher with
        | none => simpa [check_custom_rules_go, ht, hm'] using ih hpre'
        | some m' =>
            have hmm := hpre r' (List.mem_cons_self r' pre') ht m' hm'
            simpa [check_custom_rules_go, ht, hm', hmm] using ih hpre'
      · simpa [check_custom_rules_go, ht] using ih hpre'

/-- Witness for `custom_allow_shortcircuits`: the allow rule is first
and a match-everything block rule follows it; the result is still
Allow. -/
theorem custom_allow_shortcircuits_witness :
    check_custom_rules (str "Bash") (str "cat notes.txt")
      { trivialConfig with rules := [allow_everything_rule, block_everything_rule] } =
      Decision.Allow :=
  custom_allow_shortcircuits _ _ _ [] [block_everything_rule] allow_everything_rule
    (fun _ => true) rfl (by simp) rfl rfl rfl rfl

/-! ## C4 -/

/-- C4 (counterexample): `rm -rf /etc/passwd` is NOT blocked with rule
`rm.dangerous_path`.  The code's guard is
`normalized == dangerous || (normalized.starts_with("{dangerous}/") &&
normalized.len() <= dangerous.len() + 2)`, so an "immediate child" only
matches when at most one character follows the slash; `/etc/passwd`
(11 bytes > 6) escapes it.  With no cwd the verdict is Allow; with a
cwd it is blocked, but by `rm.outside_cwd`, not `rm.dangerous_path`. -/
theorem C4_counterexample :
    analyze_rm (List.map Token.word [str "rm", str "-rf", str "/etc/passwd"])
      trivialConfig none = Decision.Allow ∧
    analyze_rm (List.map Token.word [str "rm", str "-rf", str "/etc/passwd"])
      trivialConfig (some (str "/home/user/project")) =
      Decision.block (str "rm.outside_cwd")
        (str "rm -rf outside working directory: '/etc/passwd'") := by
  decide

/-- C4 (amended): for a recursive rm on a path argument, the verdict is
Block with rule `rm.dangerous_path` whenever the normalized path equals
one of the dangerous roots, or starts with a dangerous root plus `/`
and is at most two bytes longer than the root (so `/etc/`, `/etc/.` or
`/etc/x` qualify, but a general immediate child such as `/etc/passwd`
does not). -/
theorem rm_dangerous_path_blocks (cfg : CompiledConfig) (cwd : Option (List Char))
    (p : List Char) (hp : p.head? ≠ some '-')
    (hhit : dangerous_paths.any (fun d => rm_dangerous_hit (rm_normalize p cwd) d) = true) :
    analyze_rm (List.map Token.word [str "rm", str "-rf", p]) cfg cwd =
      Decision.block (str "rm.dangerous_path")
        (str "rm -rf on system path '" ++ p ++ str "' is blocked") := by
  simp only [analyze_rm, wordsOf_map_word, rm_scan_rf p hp]
  simp [rm_paths_check, check_rm_path, hhit]

/-- Witness for `rm_dangerous_path_blocks` at `rm -rf /etc/` with no
cwd. -/
theorem rm_dangerous_path_blocks_witness :
    analyze_rm (List.map Token.word [str "rm", str "-rf", str "/etc/"]) trivialConfig none =
      Decision.block (str "rm.dangerous_path")
        (str "rm -rf on system path '/etc/' is blocked") :=
  rm_dangerous_path_blocks trivialConfig none (str "/etc/") (by decide) (by decide)

/-! ## C6 (counterexample) -/

/-- C6 (counterexample): `strip_wrappers` is not idempotent.  Six nested
`sudo` layers exhaust the depth cap of 5, so one application yields
`sudo ls`, while a second application strips further to `ls`. -/
theorem C6_counterexample :
    strip_wrappers (str "sudo sudo sudo sudo sudo sudo ls") = str "sudo ls" ∧
    strip_wrappers (strip_wrappers (str "sudo sudo sudo sudo sudo sudo ls")) = str "ls" ∧
    str "ls" ≠ str "sudo ls" := by
  decide

/-! ## C8 -/

/-- C8: git force-push protection, exactly as the code computes it.  If
no force indicator is present the push is allowed; with force, if the
branch collected by the option-skipping walk is protected and not
allow-listed the verdict is Block with `git.push.force`, and the
allow-list wins over the protected set. -/
theorem git_push_force_protection (cfg : CompiledConfig) (args : List (List Char)) :
    (git_push_is_force args = false →
      analyze_git (List.map Token.word (str "git" :: str "push" :: args)) cfg =
        Decision.Allow) ∧
    (∀ branch : List Char, git_push_is_force args = true →
      (git_push_walk args false none none).2 = some branch →
      branch ∉ cfg.git.force_push_allowed_branches →
      branch ∈ protected_branches →
      analyze_git (List.map Token.word (str "git" :: str "push" :: args)) cfg =
        Decision.block (str "git.push.force")
          (str "force push to protected branch '" ++ branch ++ str "' is blocked")) ∧
    (∀ branch : List Char, git_push_is_force args = true →
      (git_push_walk args false none none).2 = some branch →
      branch ∈ cfg.git.force_push_allowed_branches →
      analyze_git (List.map Token.word (str "git" :: str "push" :: args)) cfg =
        Decision.Allow) := by
  have hred : analyze_git (List.map Token.word (str "git" :: str "push" :: args)) cfg =
      analyze_git_push args cfg := by
    simp +decide [analyze_git, wordsOf_cons_word, wordsOf_map_word]
  refine ⟨?_, ?_, ?_⟩
  · intro hforce
    rw [hred]
    simp [analyze_git_push, hforce]
  · intro branch hforce hwalk hallow hprot
    rw [hred]
    simp [analyze_git_push, hforce, hwalk, hallow, hprot]
  · intro branch hforce hwalk hallow
    rw [hred]
    simp [analyze_git_push, hforce, hwalk, hallow]

/-- Witness for `git_push_force_protection`: `git push -f origin main`
with an empty allow-list is blocked. -/
theorem git_push_force_protection_witness :
    analyze_git (List.map Token.word
        (str "git" :: str "push" :: [str "-f", str "origin", str "main"])) trivialConfig =
      Decision.block (str "git.push.force")
        (str "force push to protected branch 'main' is blocked") :=
  (git_push_force_protection trivialConfig [str "-f", str "origin", str "main"]).2.1
    (str "main") (by decide) (by decide) (by decide) (by decide)

/-! ## C9 -/

/-- C9: a Write or Edit on a dependency-file path not caught by an
earlier deny or custom rule yields Ask (never Block), carrying the
configured suggestion; and the formatted ask reason is the ask reason
followed, when a suggestion is present, by two newlines and
`"Suggestion: "` and the suggestion. -/
theorem dependency_edit_asks (cfg : CompiledConfig) (path : List Char)
    (hdE : cfg.deny_patterns.find? (fun r => r.tool == str "Edit" && r.matcher path) = none)
    (hdW : cfg.deny_patterns.find? (fun r => r.tool == str "Write" && r.matcher path) = none)
    (hcE : (check_custom_rules (str "Edit") path cfg).is_blocked = false)
    (hcW : (check_custom_rules (str "Write") path cfg).is_blocked = false)
    (hdep : cfg.is_dependency_file path = true) :
    analyze_edit path cfg =
      Decision.Ask ⟨str "dependencies.edit", str "Editing dependency file: " ++ path,
        cfg.dependency_suggestion⟩ ∧
    analyze_write path cfg =
      Decision.Ask ⟨str "dependencies.write", str "Writing dependency file: " ++ path,
        cfg.dependency_suggestion⟩ ∧
    (∀ info : AskInfo, ∀ s, info.suggestion = some s →
      format_ask_reason info = info.reason ++ str "\n\nSuggestion: " ++ s) ∧
    (∀ info : AskInfo, info.suggestion = none → format_ask_reason info = info.reason) := by
  refine ⟨?_, ?_, ?_, ?_⟩
  · simp [analyze_edit, hdE, hcE, hdep]
  · simp [analyze_write, hdW, hcW, hdep]
  · intro info s hs
    simp [format_ask_reason, hs, List.append_assoc]
  · intro info hs
    simp [format_ask_reason, hs]

/-- Witness for `dependency_edit_asks` at `Cargo.toml` with the default
dependency pattern and suggestion. -/
theorem dependency_edit_asks_witness :
    analyze_edit (str "Cargo.toml") depConfig =
      Decision.Ask ⟨str "dependencies.edit", str "Editing dependency file: Cargo.toml",
        some DEFAULT_DEPENDENCY_SUGGESTION⟩ ∧
    format_ask_reason ⟨str "dependencies.edit", str "reason", some (str "tip")⟩ =
      str "reason" ++ str "\n\nSuggestion: " ++ str "tip" := by
  have h := dependency_edit_asks depConfig (str "Cargo.toml") rfl rfl rfl rfl (by decide)
  exact ⟨h.1, h.2.2.1 _ _ rfl⟩

/-! ## C1 (counterexample) -/

/-- C1 (counterexample): wrapper transparency fails for the `bash -c`
wrapper.  The stripper extracts the quoted payload but `analyze_command`
never re-splits it, so the compound inner command
`git status && rm -rf /` (first word `git`, an analyzed family) is
tokenized as one `git` command and allowed, while deciding the inner
command directly blocks on `rm -rf /`. -/
theorem C1_counterexample :
    analyze_bash (str "git status && rm -rf /") trivialConfig none =
      Decision.block (str "rm.dangerous_path") (str "rm -rf on system path '/' is blocked") ∧
    analyze_bash (str "bash -c 'git status && rm -rf /'") trivialConfig none =
      Decision.Allow ∧
    strip_wrappers (str "bash -c 'git status && rm -rf /'") =
      str "git status && rm -rf /" := by
  decide

/-! ## C5 -/

/-- C5 (counterexample): the absolute-path containment test is a raw
string prefix, so `/home/username` — a location outside the cwd
`/home/user` (not equal to it and not under `/home/user/`) — is
reported as within. -/
theorem C5_counterexample :
    check_rm_path.is_path_within (str "/home/username") (str "/home/user") [] = true ∧
    str "/home/username" ≠ str "/home/user" ∧
    (str "/home/user" ++ str "/").isPrefixOf (str "/home/username") = false := by
  decide

/-- The per-component depth contribution used by the relative-path walk
of `is_path_within` (`..` = -1, `.` or empty = 0, others = +1). -/
def component_delta (comp : List Char) : Int :=
  if comp = str ".." then -1 else if comp = str "." ∨ comp = [] then 0 else 1

/-- The relative-path walk succeeds from a start depth exactly when no
prefix of the components drives the running depth negative. -/
theorem within_depth_iff (comps : List (List Char)) : ∀ d : Int, 0 ≤ d →
    (check_rm_path.within_depth comps d = true ↔
      ∀ n ≤ comps.length, 0 ≤ d + ((comps.take n).map component_delta).sum) := by
  induction comps with
  | nil =>
      intro d hd
      simp only [check_rm_path.within_depth, List.length_nil, Nat.le_zero]
      constructor
      · intro _ n hn
        subst hn
        simpa using hd
      · intro _
        trivial
  | cons comp rest ih =>
      intro d hd
      by_cases hdd : comp = str ".."
      · by_cases hneg : d - 1 < 0
        · simp only [check_rm_path.within_depth, hdd, if_true, hneg, ite_true]
          constructor
          · intro h
            exact absurd h (by simp)
          · intro h
            have h1 := h 1 (by simp)
            simp only [List.take_succ_cons, List.take_zero, List.map_cons, List.map_nil,
              List.sum_cons, List.sum_nil, component_delta, hdd, if_true] at h1
            omega
        · have hd' : 0 ≤ d - 1 := by omega
          simp only [check_rm_path.within_depth, hdd, if_true, hneg, ite_false, if_false]
          rw [ih (d - 1) hd']
          constructor
          · intro h n hn
            cases n with
            | zero => simpa using hd
            | succ m =>
                have hm : m ≤ rest.length := by simpa using hn
                have := h m hm
                simp only [List.take_succ_cons, List.map_cons, List.sum_cons,
                  component_delta, hdd, if_true]
                omega
          · intro h n hn
            have := h (n + 1) (by simpa using hn)
            simp only [List.take_succ_cons, List.map_cons, List.sum_cons,
              component_delta, hdd, if_true] at this
            omega
      · by_cases hdot : comp = str "." ∨ comp = []
        · simp only [check_rm_path.within_depth, hdd, if_false, hdot, if_true, ite_true,
            ite_false]
          rw [ih d hd]
          constructor
          · intro h n hn
            cases n with
            | zero => simpa using hd
            | succ m =>
                have hm : m ≤ rest.length := by simpa using hn
                have := h m hm
                simp only [List.take_succ_cons, List.map_cons, List.sum_cons,
                  component_delta, hdd, hdot, if_false, if_true]
                omega
          · intro h n hn
            have := h (n + 1) (by simpa using hn)
            simp only [List.take_succ_cons, List.map_cons, List.sum_cons,
              component_delta, hdd, hdot, if_false, if_true] at this
            omega
        · have hd' : (0 : Int) ≤ d + 1 := by omega
          simp only [check_rm_path.within_depth, hdd, hdot, if_false, ite_false]
          rw [ih (d + 1) hd']
          constructor
          · intro h n hn
            cases n with
            | zero => simpa using hd
            | succ m =>
                have hm : m ≤ rest.length := by simpa using hn
                have := h m hm
                simp only [List.take_succ_cons, List.map_cons, List.sum_cons,
                  component_delta, hdd, hdot, if_false]
                omega
          · intro h n hn
            have := h (n + 1) (by simpa using hn)
            simp only [List.take_succ_cons, List.map_cons, List.sum_cons,
              component_delta, hdd, hdot, if_false] at this
            omega

/-- C5 (amended): the path-containment predicate, characterized exactly
as the code computes it.  For absolute paths, within holds iff the path
STRING has the cwd or an allowed path as a prefix (so `/home/username`
counts as within `/home/user` despite denoting a location outside it —
see the counterexample).  For relative paths, within holds iff the
signed component depth (`..` −1, `.`/empty 0, others +1, from 0) never
goes negative on any prefix.  A recursive rm on a single path for which
the predicate is false (with `rm.block_outside_cwd` on, a known cwd,
and no dangerous-path hit) is blocked with rule `rm.outside_cwd`. -/
theorem is_path_within_characterization :
    (∀ (p cwd : List Char) (allowed : List (List Char)), path_is_absolute p = true →
      check_rm_path.is_path_within p cwd allowed =
        (cwd.isPrefixOf p || allowed.any (fun a => a.isPrefixOf p))) ∧
    (∀ (p cwd : List Char) (allowed : List (List Char)), path_is_absolute p = false →
      (check_rm_path.is_path_within p cwd allowed = true ↔
        ∀ n ≤ (check_rm_path.splitChar '/' p).length,
          0 ≤ (((check_rm_path.splitChar '/' p).take n).map component_delta).sum)) ∧
    (∀ (cfg : CompiledConfig) (c p : List Char),
      cfg.rm.block_outside_cwd = true → p.head? ≠ some '-' →
      dangerous_paths.any (fun d => rm_dangerous_hit (rm_normalize p (some c)) d) = false →
      check_rm_path.is_path_within p c cfg.rm.allowed_paths = false →
      analyze_rm (List.map Token.word [str "rm", str "-rf", p]) cfg (some c) =
        Decision.block (str "rm.outside_cwd")
          (str "rm -rf outside working directory: '" ++ p ++ str "'")) := by
  refine ⟨?_, ?_, ?_⟩
  · intro p cwd allowed habs
    simp [check_rm_path.is_path_within, habs]
  · intro p cwd allowed habs
    have h := within_depth_iff (check_rm_path.splitChar '/' p) 0 le_rfl
    simp only [zero_add] at h
    simpa [check_rm_path.is_path_within, habs] using h
  · intro cfg c p hout hp hhit hwithin
    simp only [analyze_rm, wordsOf_map_word, rm_scan_rf p hp]
    simp [rm_paths_check, check_rm_path, hhit, hout, hwithin]

/-- Witness for `is_path_within_characterization`: the absolute-path
characterization at `/var/log` against cwd `/home/user/project`, and
the rm.outside_cwd block it implies. -/
theorem is_path_within_characterization_witness :
    check_rm_path.is_path_within (str "/var/log") (str "/home/user/project")
      [str "/tmp", str "/var/tmp"] =
      ((str "/home/user/project").isPrefixOf (str "/var/log") ||
        [str "/tmp", str "/var/tmp"].any (fun a => a.isPrefixOf (str "/var/log"))) ∧
    analyze_rm (List.map Token.word [str "rm", str "-rf", str "/var/log"]) trivialConfig
      (some (str "/home/user/project")) =
      Decision.block (str "rm.outside_cwd")
        (str "rm -rf outside working directory: '/var/log'") := by
  refine ⟨?_, ?_⟩
  · exact is_path_within_characterization.1 (str "/var/log") (str "/home/user/project")
      [str "/tmp", str "/var/tmp"] (by decide)
  · exact is_path_within_characterization.2.2 trivialConfig (str "/home/user/project")
      (str "/var/log") rfl (by decide) (by decide) (by decide)

/-! ## C6 (amended) -/

/-- The first command word of a string as the stripper sees it: the
first token after skipping leading assignments, when it is a word. -/
def head_cmd_word (s : List Char) : Option (List Char) :=
  match (tokenize s).dropWhile isAssignmentTok with
  | Token.word w :: _ => some w
  | _ => none

/-- Is a word one of the shell names with `-c` handling or one of the
recognized wrapper commands? -/
def is_shell_or_wrapper (w : List Char) : Bool :=
  decide ((w = "bash".toList ∨ w = "sh".toList ∨ w = "zsh".toList ∨ w = "dash".toList) ∨
    w ∈ WRAPPER_COMMANDS)

/-- The stripper returns its input unchanged when the first command word
is not a shell or wrapper (or there is no command word). -/
theorem stripGo_eq_self (fuel : Nat) (s : List Char)
    (h : ∀ w, head_cmd_word s = some w → is_shell_or_wrapper w = false) :
    stripGo fuel s = s := by
  cases fuel with
  | zero => rfl
  | succ n =>
      cases hrest : (tokenize s).dropWhile isAssignmentTok with
      | nil => simp [stripGo, hrest]
      | cons t ts =>
          cases t with
          | word w =>
              have hw := h w (by simp [head_cmd_word, hrest])
              simp only [is_shell_or_wrapper, decide_eq_false_iff_not, not_or] at hw
              obtain ⟨⟨hb, hsh, hz, hdash⟩, hwrap⟩ := hw
              have hcond : ¬(w = "bash".toList ∨ w = "sh".toList ∨ w = "zsh".toList ∨
                  w = "dash".toList) := by
                rintro (hx | hx | hx | hx)
                exacts [hb hx, hsh hx, hz hx, hdash hx]
              simp only [stripGo, hrest]
              rw [if_neg hcond, if_neg hwrap]
          | redirect r => simp [stripGo, hrest]
          | assignment a b => simp [stripGo, hrest]

/-- C6 (amended): the depth cap behaves as claimed — at depth ≥ 5 the
stripper returns its input verbatim — and stripping is idempotent
whenever the first command word of the stripped output is not a
recognized shell or wrapper.  Unconditional idempotence fails: six
nested `sudo` layers strip to `sudo ls`, which strips further (see the
counterexample). -/
theorem strip_depth_cap_and_conditional_idempotence :
    (∀ (s : List Char) (d : Nat), MAX_STRIP_DEPTH ≤ d →
      strip_wrappers_recursive s d = s) ∧
    (∀ s : List Char,
      (head_cmd_word (strip_wrappers s)).all (fun w => !is_shell_or_wrapper w) = true →
      strip_wrappers (strip_wrappers s) = strip_wrappers s) := by
  constructor
  · intro s d hd
    unfold strip_wrappers_recursive
    rw [Nat.sub_eq_zero_of_le hd]
    rfl
  · intro s h
    apply stripGo_eq_self
    intro w hw
    rw [hw] at h
    simpa using h

/-- Witness for `strip_depth_cap_and_conditional_idempotence` at depth 5
and at `sudo ls` (which strips to `ls`, a non-wrapper). -/
theorem strip_depth_cap_and_conditional_idempotence_witness :
    strip_wrappers_recursive (str "sudo ls") 5 = str "sudo ls" ∧
    strip_wrappers (strip_wrappers (str "sudo ls")) = strip_wrappers (str "sudo ls") :=
  ⟨strip_depth_cap_and_conditional_idempotence.1 (str "sudo ls") 5 (by decide),
   strip_depth_cap_and_conditional_idempotence.2 (str "sudo ls") (by decide)⟩

/-! ## C7 -/

/-- The head of a `dropWhile` residue fails the predicate. -/
theorem dropWhile_head?_false (p : Char → Bool) (l : List Char) :
    ∀ c, (l.dropWhile p).head? = some c → p c = false := by
  induction l with
  | nil => simp
  | cons a t ih =>
      intro c hc
      by_cases h : p a
      · rw [List.dropWhile_cons_of_pos h] at hc
        exact ih c hc
      · rw [List.dropWhile_cons_of_neg h] at hc
        simp only [List.head?_cons, Option.some.injEq] at hc
        subst hc
        exact Bool.not_eq_true _ ▸ Bool.of_not_eq_true h

/-- Reversing a trimmed string exposes the right-trim as a `dropWhile`. -/
theorem trimStr_reverse (l : List Char) :
    (trimStr l).reverse = (trimLeft l).reverse.dropWhile Char.isWhitespace := by
  simp [trimStr, trimRight]

/-- The last character of a trimmed string is not whitespace. -/
theorem trimStr_getLast_not_ws (l : List Char) (c : Char)
    (h : (trimStr l).getLast? = some c) : c.isWhitespace = false := by
  have h' : (trimStr l).reverse.head? = some c := by
    rw [List.head?_reverse]
    exact h
  rw [trimStr_reverse] at h'
  exact dropWhile_head?_false _ _ c h'

/-- The first character of a trimmed string is not whitespace. -/
theorem trimStr_head_not_ws (l : List Char) (c : Char)
    (h : (trimStr l).head? = some c) : c.isWhitespace = false := by
  have hpre : trimStr l <+: trimLeft l := by
    rw [← List.reverse_suffix, trimStr_reverse]
    exact List.dropWhile_suffix _
  obtain ⟨t, ht⟩ := hpre
  cases htr : trimStr l with
  | nil => rw [htr] at h; cases h
  | cons c0 t0 =>
      rw [htr] at h
      simp only [List.head?_cons, Option.some.injEq] at h
      subst h
      have hhead : (trimLeft l).head? = some c0 := by
        rw [← ht, htr]
        rfl
      exact dropWhile_head?_false Char.isWhitespace l c0 hhead

/-- Every segment emitted by `emitSeg` is nonempty with no leading or
trailing whitespace. -/
theorem emitSeg_mem (cur : List Char) (op : Option Operator) (seg : CommandSegment)
    (h : seg ∈ emitSeg cur op) :
    seg.command ≠ [] ∧ (∀ c, seg.command.head? = some c → c.isWhitespace = false) ∧
      (∀ c, seg.command.getLast? = some c → c.isWhitespace = false) := by
  unfold emitSeg at h
  by_cases he : (trimStr cur).isEmpty
  · simp [he] at h
  · simp only [he, if_false, Bool.false_eq_true, List.mem_singleton] at h
    subst h
    refine ⟨by simpa [List.isEmpty_iff] using he, ?_, ?_⟩
    · exact fun c hc => trimStr_head_not_ws cur c hc
    · exact fun c hc => trimStr_getLast_not_ws cur c hc

/-- Every segment produced by the splitter loop is nonempty with no
leading or trailing whitespace. -/
theorem splitAux_mem (fuel : Nat) :
    ∀ (cs : List Char) (inS inD esc : Bool) (cur : List Char) (seg : CommandSegment),
      seg ∈ splitAux fuel cs inS inD esc cur →
      seg.command ≠ [] ∧ (∀ c, seg.command.head? = some c → c.isWhitespace = false) ∧
        (∀ c, seg.command.getLast? = some c → c.isWhitespace = false) := by
  induction fuel with
  | zero =>
      intro cs inS inD esc cur seg hmem
      cases cs with
      | nil => exact emitSeg_mem cur none seg hmem
      | cons c rest => simp [splitAux] at hmem
  | succ n ih =>
      intro cs inS inD esc cur seg hmem
      cases cs with
      | nil => exact emitSeg_mem cur none seg hmem
      | cons c rest =>
          simp only [splitAux] at hmem
          split_ifs at hmem with h1 h2 h3 h4 h5 h6 h7 h8
          · exact ih _ _ _ _ _ _ hmem
          · exact ih _ _ _ _ _ _ hmem
          · exact ih _ _ _ _ _ _ hmem
          · exact ih _ _ _ _ _ _ hmem
          · exact ih _ _ _ _ _ _ hmem
          · rcases List.mem_append.mp hmem with hm | hm
            · exact emitSeg_mem _ _ _ hm
            · exact ih _ _ _ _ _ _ hm
          · rcases List.mem_append.mp hmem with hm | hm
            · exact emitSeg_mem _ _ _ hm
            · exact ih _ _ _ _ _ _ hm
          · rcases List.mem_append.mp hmem with hm | hm
            · exact emitSeg_mem _ _ _ hm
            · exact ih _ _ _ _ _ _ hm
          · exact ih _ _ _ _ _ _ hmem

/-- C7: splitter quoting safety and segment invariant.  (1) While inside
single quotes, inside double quotes, or immediately after a backslash
escape, the scanner consumes the next character as literal segment
content — it appends it to the current buffer and recurses without
emitting a segment, for every character, in particular for `&`, `|` and
`;` (so quoted or escaped operator occurrences never terminate a
segment).  (2) Every segment the splitter emits has nonempty command
text with no leading or trailing whitespace. -/
theorem split_commands_quoting_and_segments :
    (∀ (fuel : Nat) (c : Char) (rest : List Char) (inS inD esc : Bool) (cur : List Char),
      esc = true ∨ inS = true ∨ inD = true →
      ∃ inS2 inD2 esc2,
        splitAux (fuel + 1) (c :: rest) inS inD esc cur =
          splitAux fuel rest inS2 inD2 esc2 (cur ++ [c])) ∧
    (∀ (input : List Char) (seg : CommandSegment), seg ∈ split_commands input →
      seg.command ≠ [] ∧ (∀ c, seg.command.head? = some c → c.isWhitespace = false) ∧
        (∀ c, seg.command.getLast? = some c → c.isWhitespace = false)) := by
  constructor
  · intro fuel c rest inS inD esc cur h
    simp only [splitAux]
    split_ifs with h1 h2 h3 h4 h5
    · exact ⟨inS, inD, false, rfl⟩
    · exact ⟨inS, inD, true, rfl⟩
    · exact ⟨!inS, inD, false, rfl⟩
    · exact ⟨inS, !inD, false, rfl⟩
    · exact ⟨inS, inD, false, rfl⟩
    all_goals
      exfalso
      rcases h with h | h | h <;> simp_all
  · intro input seg hmem
    exact splitAux_mem input.length input false false false [] seg hmem

/-- Witness for `split_commands_quoting_and_segments` on the first
segment of `echo '&&' && ls`. -/
theorem split_commands_quoting_and_segments_witness :
    (⟨str "echo '&&'", some Operator.and⟩ : CommandSegment).command ≠ [] ∧
    ('e' : Char).isWhitespace = false ∧ ('\'' : Char).isWhitespace = false := by
  have h := split_commands_quoting_and_segments.2 (str "echo '&&' && ls")
    ⟨str "echo '&&'", some Operator.and⟩ (by decide)
  exact ⟨h.1, h.2.1 'e' rfl, h.2.2 '\'' (by decide)⟩

/-! ## C1 (amended): wrapper transparency for simple wrappers

The wrappers with shell `-c` handling re-parse their payload without
re-splitting (see the counterexample), and the text-scanning stages
(deny, custom, paranoid, read-command) act on the raw command string,
so transparency can only hold for the simple wrappers and for policies
whose text-scanning stages do not fire on Bash commands.  Under those
conditions the equality is exact. -/

/-- The wrappers without shell `-c` handling and without `timeout`'s
duration consumption: prepending one of them (with no options) leaves
the analyzed command intact. -/
def SIMPLE_WRAPPERS : List (List Char) :=
  [str "sudo", str "doas", str "su", str "env", str "nohup", str "nice", str "ionice",
   str "time", str "strace", str "ltrace", str "watch"]

/-- The command families dispatched by `analyze_command`. -/
def COMMAND_FAMILIES : List (List Char) :=
  [str "git", str "rm", str "find", str "xargs", str "parallel", str "heroku", str "aws",
   str "gcloud", str "uv"]

/-- A character with no special meaning to the tokenizer or splitter:
not whitespace, not a quote, escape, redirect, operator, or `=`. -/
def plainChar (c : Char) : Bool :=
  decide (c.isWhitespace = false ∧ c ≠ '\\' ∧ c ≠ '\'' ∧ c ≠ '"' ∧ c ≠ '&' ∧ c ≠ '|' ∧
    c ≠ ';' ∧ c ≠ '>' ∧ c ≠ '<' ∧ c ≠ '=')

/-- A nonempty word of plain characters. -/
def plainWord (w : List Char) : Prop := w ≠ [] ∧ ∀ c ∈ w, plainChar c = true

instance (w : List Char) : Decidable (plainWord w) := by
  unfold plainWord
  infer_instance

/-- A character with no special meaning to the splitter (whitespace is
plain here). -/
def splitPlainChar (c : Char) : Bool :=
  decide (c ≠ '\\' ∧ c ≠ '\'' ∧ c ≠ '"' ∧ c ≠ '&' ∧ c ≠ '|' ∧ c ≠ ';')

/-- One plain character outside quoting is appended to the current word
(one unit of fuel spent). -/
theorem tokenizeAux_plain_step (fuel : Nat) (c : Char) (cs cur : List Char)
    (h : plainChar c = true) :
    tokenizeAux (fuel + 1) (c :: cs) false false false cur =
      tokenizeAux fuel cs false false false (cur ++ [c]) := by
  simp only [plainChar, decide_eq_true_eq] at h
  obtain ⟨hws, hbs, hq1, hq2, hamp, hbar, hsemi, hgt, hlt, heq⟩ := h
  simp only [tokenizeAux, Bool.false_eq_true, if_false, Bool.not_false, Bool.and_true,
    Bool.or_self]
  rw [if_neg (by simp [hbs]), if_neg (by simp [hq1]), if_neg (by simp [hq2]),
    if_neg (by simp [hws]), if_neg hgt, if_neg hlt]

/-- The tokenizer accumulates a run of plain characters into the current
word, spending one unit of fuel per character. -/
theorem tokenizeAux_plain (w : List Char) (hw : ∀ c ∈ w, plainChar c = true) :
    ∀ (fuel : Nat) (cs cur : List Char),
      tokenizeAux (w.length + fuel) (w ++ cs) false false false cur =
        tokenizeAux fuel cs false false false (cur ++ w) := by
  induction w with
  | nil => simp
  | cons c w' ih =>
      intro fuel cs cur
      have hc := hw c (List.mem_cons_self c w')
      have hw' : ∀ x ∈ w', plainChar x = true := fun x hx => hw x (List.mem_cons_of_mem c hx)
      have e : (c :: w').length + fuel = (w'.length + fuel) + 1 := by
        simp [List.length_cons]
        omega
      rw [e, List.cons_append, tokenizeAux_plain_step _ c _ _ hc, ih hw' fuel cs (cur ++ [c])]
      simp

/-- One whitespace character outside quoting flushes the current word. -/
theorem tokenizeAux_space (fuel : Nat) (cs cur : List Char) :
    tokenizeAux (fuel + 1) (' ' :: cs) false false false cur =
      if cur.isEmpty then tokenizeAux fuel cs false false false []
      else classify_token cur :: tokenizeAux fuel cs false false false [] := by
  simp only [tokenizeAux, Bool.false_eq_true, if_false, Bool.not_false, Bool.and_true,
    Bool.or_self]
  rw [if_neg (by decide), if_neg (by decide), if_neg (by decide), if_pos (by decide)]

/-- A word without `=` is classified as a plain word. -/
theorem classify_token_plain (w : List Char) (hw : ∀ c ∈ w, plainChar c = true) :
    classify_token w = Token.word w := by
  have hfind : w.findIdx? (· = '=') = none := by
    rw [List.findIdx?_eq_none_iff]
    intro c hc
    have := hw c hc
    simp only [plainChar, decide_eq_true_eq] at this
    simp [this.2.2.2.2.2.2.2.2.2]
  simp [classify_token, hfind]

/-- Tokenizing a space-join of plain words yields exactly those words. -/
theorem tokenize_joinWords (ws : List (List Char)) (hws : ∀ w ∈ ws, plainWord w)
    (hne : ws ≠ []) : tokenize (joinWords ws) = ws.map Token.word := by
  induction ws with
  | nil => cases hne rfl
  | cons w ws' ih =>
      obtain ⟨hwne, hwp⟩ := hws w (List.mem_cons_self w ws')
      cases ws' with
      | nil =>
          show tokenizeAux w.length w false false false [] = [Token.word w]
          have h1 := tokenizeAux_plain w hwp 0 [] []
          rw [Nat.add_zero, List.append_nil, List.nil_append] at h1
          rw [h1]
          have hcl := classify_token_plain w hwp
          simp [tokenizeAux, List.isEmpty_iff, hwne, hcl]
      | cons w2 ws'' =>
          have hne'' : (w2 :: ws'') ≠ [] := by simp
          have hrec := ih (fun x hx => hws x (List.mem_cons_of_mem w hx)) hne''
          show tokenize (w ++ ' ' :: joinWords (w2 :: ws'')) = _
          unfold tokenize
          have hlen : (w ++ ' ' :: joinWords (w2 :: ws'')).length =
              w.length + ((joinWords (w2 :: ws'')).length + 1) := by
            simp [List.length_append]
          rw [hlen, tokenizeAux_plain w hwp _ _ [], List.nil_append,
            tokenizeAux_space _ _ w]
          simp only [List.isEmpty_iff, hwne, if_false, ite_false]
          rw [classify_token_plain w hwp]
          unfold tokenize at hrec
          rw [hrec]
          simp [hwne]

/-- The splitter accumulates a run of splitter-plain characters into the
current buffer and emits only the final segment. -/
theorem splitAux_plain (cs : List Char) (h : ∀ c ∈ cs, splitPlainChar c = true) :
    ∀ (fuel : Nat) (cur : List Char),
      splitAux (cs.length + fuel) cs false false false cur = emitSeg (cur ++ cs) none := by
  induction cs with
  | nil => simp [splitAux]
  | cons c rest ih =>
      intro fuel cur
      have hc := h c (List.mem_cons_self c rest)
      have hrest : ∀ x ∈ rest, splitPlainChar x = true :=
        fun x hx => h x (List.mem_cons_of_mem c hx)
      simp only [splitPlainChar, decide_eq_true_eq] at hc
      obtain ⟨hbs, hq1, hq2, hamp, hbar, hsemi⟩ := hc
      have e : (c :: rest).length + fuel = (rest.length + fuel) + 1 := by
        simp [List.length_cons]
        omega
      rw [e]
      simp only [splitAux, Bool.false_eq_true, if_false, Bool.not_false, Bool.and_true,
        Bool.or_self]
      rw [if_neg (by simp [hbs]), if_neg (by simp [hq1]), if_neg (by simp [hq2]),
        if_neg hamp, if_neg hbar, if_neg hsemi, ih hrest fuel (cur ++ [c])]
      simp

/-- Splitting a string of splitter-plain characters that is already
trimmed and nonempty yields a single segment. -/
theorem split_plain_single (s : List Char) (hne : s ≠ [])
    (hall : ∀ c ∈ s, splitPlainChar c = true) (htrim : trimStr s = s) :
    split_commands s = [⟨s, none⟩] := by
  unfold split_commands
  have h := splitAux_plain s hall 0 []
  rw [Nat.add_zero, List.nil_append] at h
  rw [h]
  unfold emitSeg
  rw [htrim]
  simp [List.isEmpty_iff, hne]

/-- A string whose first and last characters are not whitespace is its
own trim. -/
theorem trimStr_eq_self (l : List Char)
    (hh : ∀ c, l.head? = some c → c.isWhitespace = false)
    (hl : ∀ c, l.getLast? = some c → c.isWhitespace = false) :
    trimStr l = l := by
  cases l with
  | nil => rfl
  | cons a t =>
      have ha : a.isWhitespace = false := hh a rfl
      have hdl : List.dropWhile Char.isWhitespace (a :: t) = a :: t :=
        List.dropWhile_cons_of_neg (by simp [ha])
      have htl : trimLeft (a :: t) = a :: t := hdl
      unfold trimStr
      rw [htl]
      unfold trimRight
      cases hrev : (a :: t).reverse with
      | nil => simp at hrev
      | cons c t' =>
          have hc : (a :: t).getLast? = some c := by
            rw [← List.head?_reverse, hrev]
            rfl
          have hcw := hl c hc
          have hdr : List.dropWhile Char.isWhitespace (c :: t') = c :: t' :=
            List.dropWhile_cons_of_neg (by simp [hcw])
          calc ((c :: t').dropWhile Char.isWhitespace).reverse
              = (c :: t').reverse := by rw [hdr]
            _ = (a :: t).reverse.reverse := by rw [hrev]
            _ = a :: t := List.reverse_reverse _

/-- Space-joins of words with a nonempty head are nonempty. -/
theorem joinWords_ne_nil (w : List Char) (ws : List (List Char)) (hw : w ≠ []) :
    joinWords (w :: ws) ≠ [] := by
  cases ws with
  | nil => exact hw
  | cons w2 ws' => simp [joinWords, hw]

/-- The head of a space-join is the head of the first word. -/
theorem joinWords_head? (w : List Char) (ws : List (List Char)) (hw : w ≠ []) :
    (joinWords (w :: ws)).head? = w.head? := by
  cases ws with
  | nil => rfl
  | cons w2 ws' =>
      show (w ++ ' ' :: joinWords (w2 :: ws')).head? = w.head?
      exact List.head?_append_of_ne_nil _ hw

/-- The last character of a space-join comes from one of the words. -/
theorem joinWords_getLast? (ws : List (List Char)) (hne : ws ≠ [])
    (hall : ∀ w ∈ ws, w ≠ []) :
    ∃ u ∈ ws, (joinWords ws).getLast? = u.getLast? := by
  induction ws with
  | nil => cases hne rfl
  | cons w ws' ih =>
      cases ws' with
      | nil => exact ⟨w, by simp, rfl⟩
      | cons w2 ws'' =>
          have h2 : (w2 :: ws'') ≠ [] := by simp
          have hall' : ∀ u ∈ w2 :: ws'', u ≠ [] :=
            fun u hu => hall u (List.mem_cons_of_mem w hu)
          obtain ⟨u, hu, he⟩ := ih h2 hall'
          refine ⟨u, List.mem_cons_of_mem w hu, ?_⟩
          show (w ++ ' ' :: joinWords (w2 :: ws'')).getLast? = u.getLast?
          have hj : joinWords (w2 :: ws'') ≠ [] :=
            joinWords_ne_nil w2 ws'' (hall w2 (by simp))
          rw [List.getLast?_append_cons w ' ' (joinWords (w2 :: ws'')), ← he]
          show ([' '] ++ joinWords (w2 :: ws'')).getLast? = _
          rw [List.getLast?_append_of_ne_nil [' '] hj]

/-- Every character of a space-join is a space or a character of one of
the words. -/
theorem mem_joinWords (ws : List (List Char)) (c : Char) (h : c ∈ joinWords ws) :
    c = ' ' ∨ ∃ w ∈ ws, c ∈ w := by
  induction ws with
  | nil => simp [joinWords] at h
  | cons w ws' ih =>
      cases ws' with
      | nil => exact Or.inr ⟨w, by simp, h⟩
      | cons w2 ws'' =>
          rcases List.mem_append.mp h with hw | hrest
          · exact Or.inr ⟨w, by simp, hw⟩
          · rcases List.mem_cons.mp hrest with hsp | hj
            · exact Or.inl hsp
            · rcases ih hj with hsp | ⟨u, hu, hc⟩
              · exact Or.inl hsp
              · exact Or.inr ⟨u, List.mem_cons_of_mem w hu, hc⟩

/-- Characters of a space-join of plain words are splitter-plain. -/
theorem joinWords_plain_chars (ws : List (List Char)) (hws : ∀ u ∈ ws, plainWord u) :
    ∀ c ∈ joinWords ws, splitPlainChar c = true := by
  intro c hc
  rcases mem_joinWords ws c hc with rfl | ⟨u, hu, hcu⟩
  · decide
  · have h := (hws u hu).2 c hcu
    simp only [plainChar, decide_eq_true_eq] at h
    simp only [splitPlainChar, decide_eq_true_eq]
    exact ⟨h.2.1, h.2.2.1, h.2.2.2.1, h.2.2.2.2.1, h.2.2.2.2.2.1, h.2.2.2.2.2.2.1⟩

/-- A last element is a member. -/
theorem mem_of_getLast?_eq (l : List Char) (c : Char) (h : l.getLast? = some c) : c ∈ l := by
  rw [← List.head?_reverse] at h
  cases hrev : l.reverse with
  | nil => rw [hrev] at h; cases h
  | cons a t =>
      rw [hrev] at h
      simp only [List.head?_cons, Option.some.injEq] at h
      have hmem : a ∈ l.reverse := by rw [hrev]; exact List.mem_cons_self a t
      rw [← h]
      simpa using hmem

/-- A head element is a member. -/
theorem mem_of_head?_eq (l : List Char) (c : Char) (h : l.head? = some c) : c ∈ l := by
  cases l with
  | nil => cases h
  | cons a t =>
      simp only [List.head?_cons, Option.some.injEq] at h
      rw [← h]
      exact List.mem_cons_self a t

/-- A space-join of plain words is its own trim. -/
theorem joinWords_trim (ws : List (List Char)) (hws : ∀ u ∈ ws, plainWord u)
    (hne : ws ≠ []) : trimStr (joinWords ws) = joinWords ws := by
  cases ws with
  | nil => cases hne rfl
  | cons w ws' =>
      have hwp := hws w (List.mem_cons_self w ws')
      apply trimStr_eq_self
      · intro c hc
        rw [joinWords_head? w ws' hwp.1] at hc
        have hcw := hwp.2 c (mem_of_head?_eq w c hc)
        simp only [plainChar, decide_eq_true_eq] at hcw
        exact hcw.1
      · intro c hc
        obtain ⟨u, hu, he⟩ :=
          joinWords_getLast? (w :: ws') (by simp) (fun u hu => (hws u hu).1)
        rw [he] at hc
        have hcw := (hws u hu).2 c (mem_of_getLast?_eq u c hc)
        simp only [plainChar, decide_eq_true_eq] at hcw
        exact hcw.1

/-- Splitting a space-join of plain words yields one segment containing
the whole string. -/
theorem split_joinWords (ws : List (List Char)) (hws : ∀ u ∈ ws, plainWord u)
    (hne : ws ≠ []) : split_commands (joinWords ws) = [⟨joinWords ws, none⟩] := by
  cases ws with
  | nil => cases hne rfl
  | cons w ws' =>
      exact split_plain_single _ (joinWords_ne_nil w ws' (hws w (by simp)).1)
        (joinWords_plain_chars _ hws) (joinWords_trim _ hws (by simp))

/-- Facts about the analyzed command families, checked by computation. -/
theorem families_facts : ∀ f ∈ COMMAND_FAMILIES,
    is_shell_or_wrapper f = false ∧ f.head? ≠ some '-' ∧ f.contains '=' = false := by
  decide

/-- Facts about the simple wrappers, checked by computation. -/
theorem simple_wrapper_facts : ∀ x ∈ SIMPLE_WRAPPERS,
    plainWord x ∧ x ∈ WRAPPER_COMMANDS ∧
      ¬(x = "bash".toList ∨ x = "sh".toList ∨ x = "zsh".toList ∨ x = "dash".toList) ∧
      x ≠ "timeout".toList := by
  decide

/-- Word tokens carry no leading assignments to skip. -/
theorem dropWhile_assignment_map_word (ws : List (List Char)) :
    (ws.map Token.word).dropWhile isAssignmentTok = ws.map Token.word := by
  cases ws with
  | nil => rfl
  | cons w ws' => exact List.dropWhile_cons_of_neg (by simp [isAssignmentTok])

/-- A word token at the head means no leading assignments to skip. -/
theorem dropWhile_assignment_word_cons (w : List Char) (ts : List Token) :
    (Token.word w :: ts).dropWhile isAssignmentTok = Token.word w :: ts :=
  List.dropWhile_cons_of_neg (by simp [isAssignmentTok])

/-- The head command word of a space-join of plain words is the first
word. -/
theorem head_cmd_word_joinWords (ws : List (List Char)) (fam : List Char)
    (hws : ∀ u ∈ ws, plainWord u) (hhead : ws.head? = some fam) :
    head_cmd_word (joinWords ws) = some fam := by
  cases ws with
  | nil => cases hhead
  | cons w ws' =>
      have hwf : w = fam := by simpa using hhead
      subst hwf
      unfold head_cmd_word
      rw [tokenize_joinWords _ hws (by simp), List.map_cons,
        List.dropWhile_cons_of_neg (by simp [isAssignmentTok])]

/-- Stripping leaves a plain command whose first word is one of the
analyzed families unchanged. -/
theorem stripGo_joinWords_family (fuel : Nat) (ws : List (List Char)) (fam : List Char)
    (hws : ∀ u ∈ ws, plainWord u) (hhead : ws.head? = some fam)
    (hfam : fam ∈ COMMAND_FAMILIES) :
    stripGo fuel (joinWords ws) = joinWords ws := by
  apply stripGo_eq_self
  intro u hu
  rw [head_cmd_word_joinWords ws fam hws hhead] at hu
  have : fam = u := by simpa using hu
  subst this
  exact (families_facts fam hfam).1

/-- `sudo` option skipping stops at a non-option word. -/
theorem sudo_skip_nonopt (a : List Char) (rest : List (List Char))
    (ha : a.head? ≠ some '-') : sudo_skip (a :: rest) = a :: rest := by
  rw [sudo_skip.eq_def]
  simp [ha]

/-- `nice`/`ionice` option skipping stops at a non-option word. -/
theorem nice_skip_nonopt (a : List Char) (rest : List (List Char))
    (ha : a.head? ≠ some '-') : nice_skip (a :: rest) = a :: rest := by
  rw [nice_skip.eq_def]
  simp [ha]

/-- Generic option skipping stops at a non-option word. -/
theorem generic_skip_nonopt (a : List Char) (rest : List (List Char))
    (ha : a.head? ≠ some '-') : generic_skip (a :: rest) = a :: rest :=
  List.dropWhile_cons_of_neg (by simp [ha])

/-- `env` option skipping stops at a non-option word without `=`. -/
theorem env_skip_nonopt (a : List Char) (rest : List (List Char))
    (ha : a.head? ≠ some '-') (he : a.contains '=' = false) :
    env_skip (a :: rest) = a :: rest := by
  have he' : '=' ∉ a := by simpa using he
  exact List.dropWhile_cons_of_neg (by simp [ha, he'])

/-- Stripping a simple wrapper prepended to a plain family command
yields exactly the inner command. -/
theorem strip_wrapped (w fam : List Char) (ws : List (List Char))
    (hw : w ∈ SIMPLE_WRAPPERS) (hws : ∀ u ∈ ws, plainWord u)
    (hhead : ws.head? = some fam) (hfam : fam ∈ COMMAND_FAMILIES) :
    strip_wrappers (joinWords (w :: ws)) = joinWords ws := by
  obtain ⟨hwp, hwrap, hnotshell, hnottimeout⟩ := simple_wrapper_facts w hw
  cases ws with
  | nil => cases hhead
  | cons fam0 rest =>
  have hfam0 : fam0 = fam := by simpa using hhead
  subst hfam0
  have hplainall : ∀ u ∈ w :: fam0 :: rest, plainWord u := by
    intro u hu
    rcases List.mem_cons.mp hu with rfl | hu2
    · exact hwp
    · exact hws u hu2
  have htok : tokenize (joinWords (w :: fam0 :: rest)) =
      (w :: fam0 :: rest).map Token.word :=
    tokenize_joinWords _ hplainall (by simp)
  obtain ⟨hfnw, hfhead, hfeq⟩ := families_facts fam0 hfam
  show stripGo (4 + 1) _ = _
  simp only [stripGo, htok, List.map_cons, dropWhile_assignment_word_cons]
  rw [if_neg hnotshell, if_pos hwrap]
  simp only [wordsOf_cons_word, wordsOf_map_word]
  rw [sudo_skip_nonopt fam0 rest hfhead, env_skip_nonopt fam0 rest hfhead hfeq,
    nice_skip_nonopt fam0 rest hfhead, generic_skip_nonopt fam0 rest hfhead,
    if_neg hnottimeout]
  simp only [ite_self, List.isEmpty_cons, Bool.false_eq_true, if_false, ite_false]
  exact stripGo_joinWords_family 4 (fam0 :: rest) fam0 hws hhead hfam

/-- Step 5 of `analyze_bash` on a single segment depends only on the
stripped command. -/
theorem git_add_segments_strip_congr (cfg : CompiledConfig) (s1 s2 : List Char)
    (o1 o2 : Option Operator) (h : strip_wrappers s1 = strip_wrappers s2) :
    git_add_sensitive_segments cfg [⟨s1, o1⟩] = git_add_sensitive_segments cfg [⟨s2, o2⟩] := by
  unfold git_add_sensitive_segments
  rw [h]

/-- Step 6 of `analyze_bash` on a single segment depends only on the
stripped command. -/
theorem analyze_segments_strip_congr (cfg : CompiledConfig) (cwd : Option (List Char))
    (s1 s2 : List Char) (o1 o2 : Option Operator)
    (h : strip_wrappers s1 = strip_wrappers s2) :
    analyze_segments cfg cwd [⟨s1, o1⟩] = analyze_segments cfg cwd [⟨s2, o2⟩] := by
  unfold analyze_segments
  rw [h]

/-- C1 (amended): wrapper transparency holds for one simple wrapper
(`sudo`, `doas`, `su`, `env`, `nohup`, `nice`, `ionice`, `time`,
`strace`, `ltrace`, `watch` — without options) prepended to a single
plain command whose first word is an analyzed family, for every policy
whose deny rules and custom rules do not target Bash, with paranoid
mode off and no read-commands matcher: the wrapped and unwrapped
invocations decide identically.  The original claim fails for shell
wrappers (`bash -c`) and for policies with raw-text stages — see the
counterexample. -/
theorem wrapper_transparency_amended (cfg : CompiledConfig) (cwd : Option (List Char))
    (w fam : List Char) (ws : List (List Char))
    (hw : w ∈ SIMPLE_WRAPPERS) (hws : ∀ u ∈ ws, plainWord u)
    (hhead : ws.head? = some fam) (hfam : fam ∈ COMMAND_FAMILIES)
    (hdeny : ∀ r ∈ cfg.deny_patterns, r.tool ≠ str "Bash")
    (hcust : ∀ r ∈ cfg.rules, r.tool ≠ str "Bash")
    (hpar : cfg.paranoid_enabled = false)
    (hread : cfg.read_commands_re = none) :
    analyze_bash (joinWords (w :: ws)) cfg cwd = analyze_bash (joinWords ws) cfg cwd := by
  have hwplain : plainWord w := (simple_wrapper_facts w hw).1
  have hne : ws ≠ [] := by
    intro h
    rw [h] at hhead
    cases hhead
  have hplainall : ∀ u ∈ w :: ws, plainWord u := by
    intro u hu
    rcases List.mem_cons.mp hu with rfl | hu2
    · exact hwplain
    · exact hws u hu2
  have hstrip1 : strip_wrappers (joinWords (w :: ws)) = joinWords ws :=
    strip_wrapped w fam ws hw hws hhead hfam
  have hstrip2 : strip_wrappers (joinWords ws) = joinWords ws :=
    stripGo_joinWords_family MAX_STRIP_DEPTH ws fam hws hhead hfam
  have hstripeq : strip_wrappers (joinWords (w :: ws)) = strip_wrappers (joinWords ws) := by
    rw [hstrip1, hstrip2]
  have hsp1 : split_commands (joinWords (w :: ws)) = [⟨joinWords (w :: ws), none⟩] :=
    split_joinWords (w :: ws) hplainall (by simp)
  have hsp2 : split_commands (joinWords ws) = [⟨joinWords ws, none⟩] :=
    split_joinWords ws hws hne
  have hf1 := deny_find_none cfg.deny_patterns (str "Bash") (joinWords (w :: ws)) hdeny
  have hf2 := deny_find_none cfg.deny_patterns (str "Bash") (joinWords ws) hdeny
  have hc1 : check_custom_rules (str "Bash") (joinWords (w :: ws)) cfg = Decision.Allow := by
    unfold check_custom_rules
    exact custom_rules_other_tool _ _ _ hcust
  have hc2 : check_custom_rules (str "Bash") (joinWords ws) cfg = Decision.Allow := by
    unfold check_custom_rules
    exact custom_rules_other_tool _ _ _ hcust
  have hga : git_add_sensitive_segments cfg [⟨joinWords (w :: ws), none⟩] =
      git_add_sensitive_segments cfg [⟨joinWords ws, none⟩] :=
    git_add_segments_strip_congr cfg _ _ none none hstripeq
  have han : analyze_segments cfg cwd [⟨joinWords (w :: ws), none⟩] =
      analyze_segments cfg cwd [⟨joinWords ws, none⟩] :=
    analyze_segments_strip_congr cfg cwd _ _ none none hstripeq
  unfold analyze_bash analyze_command
  rw [hf1, hf2]
  simp only [hc1, hc2, CompiledConfig.matches_paranoid, hpar, Bool.not_false, if_true,
    ite_true, CompiledConfig.is_read_command, hread, Decision.is_blocked, hsp1, hsp2, hga,
    han]
  simp [han]

/-- Witness for `wrapper_transparency_amended`: `sudo rm -rf /` decides
exactly as `rm -rf /`. -/
theorem wrapper_transparency_amended_witness :
    analyze_bash (joinWords [str "sudo", str "rm", str "-rf", str "/"]) trivialConfig none =
      analyze_bash (joinWords [str "rm", str "-rf", str "/"]) trivialConfig none :=
  wrapper_transparency_amended trivialConfig none (str "sudo") (str "rm")
    [str "rm", str "-rf", str "/"] (by decide) (by decide) (by decide) (by decide)
    (by simp [trivialConfig]) (by simp [trivialConfig]) rfl rfl

end AcaSafetyNet
